import Mathlib

/-!
Verification development for the RIFT financial-forensics engine
(`backend/app/detection.py`, `backend/app/scoring.py`).

The Python pipeline is shallowly embedded: account ids, pattern tags and
pattern types are `String`; amounts and derived statistics are `ℚ`;
timestamps are `ℤ` (seconds, the resolution of the input format).
Python dicts are embedded as insertion-ordered association lists, Python
sets as first-occurrence-deduplicated lists, and Python's stable sorts as
insertion sort (a stable sort with respect to the same total preorder,
hence producing the same list).
-/

namespace RIFT

/-- Lexicographic comparison of character lists by code point, matching
Python's string ordering. -/
def charListLe : List Char → List Char → Bool
  | [], _ => true
  | _ :: _, [] => false
  | a :: as, b :: bs =>
    if a.toNat < b.toNat then true
    else if b.toNat < a.toNat then false
    else charListLe as bs

/-- String `≤` by code points (Python's string comparison). -/
def strLe (a b : String) : Bool := charListLe a.toList b.toList

/-- Strict lexicographic comparison of character lists by code point. -/
def charListLt : List Char → List Char → Bool
  | [], [] => false
  | [], _ :: _ => true
  | _ :: _, [] => false
  | a :: as, b :: bs =>
    if a.toNat < b.toNat then true
    else if b.toNat < a.toNat then false
    else charListLt as bs

/-- String `<` by code points. -/
def strLt (a b : String) : Bool := charListLt a.toList b.toList

/-- Stable insertion sort with a Boolean comparator; agrees with Python's
stable `sorted` for any total preorder. -/
def isort (le : α → α → Bool) (l : List α) : List α :=
  List.insertionSort (fun a b => le a b = true) l

/-- First occurrence of a key in an association list (Python dict lookup). -/
def lookupA [DecidableEq α] (l : List (α × β)) (k : α) : Option β :=
  (l.find? (fun p => decide (p.1 = k))).map (·.2)

/-- Helper for `dedupF`: drop elements already in `seen`. -/
def dedupFAux [DecidableEq α] (seen : List α) : List α → List α
  | [] => []
  | a :: as => if a ∈ seen then dedupFAux seen as else a :: dedupFAux (a :: seen) as

/-- Deduplication keeping the first occurrence of each element (the
observable content of a Python `set`/`frozenset` built by iteration, and
of `dict` key order). -/
def dedupF [DecidableEq α] (l : List α) : List α := dedupFAux [] l

/-- Sum of a list of rationals. -/
def sumQ (l : List ℚ) : ℚ := l.foldl (· + ·) 0

/-- Arithmetic mean of a list of rationals (0 for the empty list). -/
def meanQ (l : List ℚ) : ℚ := sumQ l / l.length

/-- Sample variance (`ddof = 1`, as in pandas `std`), 0 when fewer than 2
values.  The sources only ever compare the standard deviation against
multiples of a mean, so the variance — the square of the pandas value —
is what the embedding carries. -/
def sampleVar (l : List ℚ) : ℚ :=
  if l.length ≤ 1 then 0
  else sumQ (l.map (fun x => (x - meanQ l) ^ 2)) / (l.length - 1 : ℕ)

/-- Round a rational to the nearest integer, halves to even: the behaviour
of Python's builtin `round`. -/
def roundHalfEven (x : ℚ) : ℤ :=
  if x - ⌊x⌋ < 1 / 2 then ⌊x⌋
  else if 1 / 2 < x - ⌊x⌋ then ⌊x⌋ + 1
  else if ⌊x⌋ % 2 = 0 then ⌊x⌋ else ⌊x⌋ + 1

/-- Python's `round(x, 1)`. -/
def round1 (x : ℚ) : ℚ := (roundHalfEven (10 * x) : ℚ) / 10

/-- Maximum of a list of rationals, `none` for the empty list
(Python's `max(...)` on a nonempty collection). -/
def maxQ : List ℚ → Option ℚ
  | [] => none
  | x :: xs => some (xs.foldl max x)

/-- One input transaction (one row of the validated table). -/
structure Txn where
  txnId : String
  sender : String
  receiver : String
  amount : ℚ
  timestamp : ℤ
deriving DecidableEq

/-- Per-account behavioural profile, as built by `_build_profiles`.
`sentVar` is the square of the pandas `sent_std` (the standard deviation
itself is never used downstream). -/
structure Profile where
  totalTxns : ℕ
  sentCount : ℕ
  receivedCount : ℕ
  counterpartyCount : ℕ
  timeSpanHours : ℚ
  avgAmount : ℚ
  sentVar : ℚ
  velocity : ℚ
deriving DecidableEq

/-- Embedding of `_build_profiles`.  The account iteration order of the
Python `set` union is unobservable (profiles are only ever read by key);
the embedding uses first-occurrence order.  The min/max over the sent-side
and receive-side timestamp extrema computed by the source equals the
min/max over all timestamps of transactions touching the account. -/
def buildProfiles (txns : List Txn) : List (String × Profile) :=
  (dedupF (txns.map (·.sender) ++ txns.map (·.receiver))).map (fun acc =>
    let sentTxns := txns.filter (fun t => decide (t.sender = acc))
    let recvTxns := txns.filter (fun t => decide (t.receiver = acc))
    let sentCount := sentTxns.length
    let recvCount := recvTxns.length
    let total := sentCount + recvCount
    let tsVals := sentTxns.map (·.timestamp) ++ recvTxns.map (·.timestamp)
    let timeSpan : ℚ :=
      if tsVals = [] then 0
      else ((tsVals.foldl max (tsVals.headD 0) - tsVals.foldl min (tsVals.headD 0) : ℤ) : ℚ) / 3600
    let sentAvg := meanQ (sentTxns.map (·.amount))
    let recvAvg := meanQ (recvTxns.map (·.amount))
    let avgAmount : ℚ :=
      if sentCount ≠ 0 ∧ recvCount ≠ 0 then
        (sentAvg * sentCount + recvAvg * recvCount) / total
      else if sentCount ≠ 0 then sentAvg
      else if recvCount ≠ 0 then recvAvg
      else 0
    let sentVar := sampleVar (sentTxns.map (·.amount))
    let cpSent := (dedupF (sentTxns.map (·.receiver))).length
    let cpRecv := (dedupF (recvTxns.map (·.sender))).length
    let hours : ℚ := max timeSpan 1
    let velocity := total / (hours / 24)
    (acc, { totalTxns := total, sentCount := sentCount, receivedCount := recvCount,
            counterpartyCount := cpSent + cpRecv, timeSpanHours := timeSpan,
            avgAmount := avgAmount, sentVar := sentVar, velocity := velocity }))

/-- Sender-side regularity metrics, as built by `_build_payroll_stats`.
Coefficients of variation are carried as (mean, sample variance) pairs and
compared in squared form by `isPayrollLike`; `gapCvDefined` records the
`tx_count > 2` branch (otherwise `gap_cv = +inf`). -/
structure PayrollStat where
  txCount : ℕ
  meanAmount : ℚ
  amountVar : ℚ
  gapCvDefined : Bool
  gapMean : ℚ
  gapVar : ℚ
deriving DecidableEq

/-- Embedding of `_build_payroll_stats` (per sender; the groupby key order
is unobservable, lookups are by key). -/
def buildPayrollStats (txns : List Txn) : List (String × PayrollStat) :=
  (dedupF (txns.map (·.sender))).map (fun sender =>
    let sent := txns.filter (fun t => decide (t.sender = sender))
    let txCount := sent.length
    let amounts := sent.map (·.amount)
    let meanAmt := if 0 < txCount then meanQ amounts else 0
    let amtVar := if 1 < txCount then sampleVar amounts else 0
    let times := isort (fun a b => decide (a ≤ b)) (sent.map (·.timestamp))
    let gaps : List ℚ := (times.zip (times.drop 1)).map (fun p => ((p.2 - p.1 : ℤ) : ℚ))
    let gapMean := if 0 < gaps.length then meanQ gaps else 0
    let gapVar := if 1 < gaps.length then sampleVar gaps else 0
    (sender, { txCount := txCount, meanAmount := meanAmt, amountVar := amtVar,
               gapCvDefined := decide (2 < txCount), gapMean := gapMean, gapVar := gapVar }))

/-- Embedding of `_is_payroll_like`.  `amount_cv > 0.15` (with
`amount_cv = std/mean`, `mean > 0`) is the squared comparison
`var > 0.15² · mean²`; `gap_cv < 0.3` likewise requires `gapMean > 0`
(otherwise `gap_cv = +inf`) and `gapVar < 0.3² · gapMean²`. -/
def isPayrollLike (prof : Option Profile) (pstats : Option PayrollStat) : Bool :=
  match prof with
  | none => false
  | some _ =>
    match pstats with
    | none => false
    | some p =>
      if p.txCount < 3 then false
      else if p.meanAmount ≤ 0 then false
      else if (15 / 100 : ℚ) ^ 2 * p.meanAmount ^ 2 < p.amountVar then false
      else if ¬ p.gapCvDefined then false
      else decide (0 < p.gapMean ∧ p.gapVar < (3 / 10 : ℚ) ^ 2 * p.gapMean ^ 2)

/-- Embedding of `_is_merchant_like`.  `int(len(all_cp) * 0.80)` is
`4·len/5` rounded down (exact for every dataset size representable in
double precision); `all_span[len // 2]` is the upper median. -/
def isMerchantLike (prof : Option Profile) (patterns : List String)
    (profiles : List (String × Profile)) : Bool :=
  match prof with
  | none => false
  | some p =>
    let hasCycle := patterns.any (fun t => decide ("cycle".toList <:+: t.toList))
    if hasCycle then false
    else
      let thresholds : ℕ × ℚ :=
        if 0 < profiles.length then
          let allCp := isort (fun a b => decide (a ≤ b)) (profiles.map (·.2.counterpartyCount))
          let allSpan := isort (fun a b => decide (a ≤ b)) (profiles.map (·.2.timeSpanHours))
          let cpP80 := allCp.getD (4 * allCp.length / 5) 15
          let spanMedian := allSpan.getD (allSpan.length / 2) 168
          (max 3 cpP80, max 2 spanMedian)
        else (15, 168)
      decide (thresholds.1 ≤ p.counterpartyCount ∧ thresholds.2 ≤ p.timeSpanHours ∧
        2 * p.sentCount < p.receivedCount)

/-- The `PATTERN_SCORES` table with its `10.0` default. -/
def patternScore (t : String) : ℚ :=
  if t = "cycle_length_3" then 35
  else if t = "cycle_length_4" then 30
  else if t = "cycle_length_5" then 25
  else if t = "fan_in" then 30
  else if t = "fan_out" then 30
  else if t = "layered_shell" then 25
  else 10

/-- The `SUSPICION_THRESHOLD` constant. -/
def suspicionThreshold : ℚ := 25

/-- Per-account centrality record (`pagerank`, `betweenness`). -/
structure Cent where
  pagerank : ℚ
  betweenness : ℚ
deriving DecidableEq

/-- A ring candidate / consolidated ring before scoring:
`{"members": ..., "pattern_type": ...}`. -/
structure RingC where
  members : List String
  patternType : String
deriving DecidableEq

instance : Inhabited RingC := ⟨⟨[], ""⟩⟩

/-- A scored output ring. -/
structure RingOut where
  ringId : String
  memberAccounts : List String
  patternType : String
  riskScore : ℚ
deriving DecidableEq

/-- One entry of `suspicious_accounts`. -/
structure SuspEntry where
  accountId : String
  suspicionScore : ℚ
  detectedPatterns : List String
  ringId : String
deriving DecidableEq

/-- The zero-padded sequential ring label `RING_{n:03d}`. -/
def ringIdStr (n : ℕ) : String :=
  "RING_" ++ (if n < 10 then "00" ++ toString n
    else if n < 100 then "0" ++ toString n
    else toString n)

/-- Lexicographic `≤` on lists of strings (Python tuple comparison). -/
def listStrLe : List String → List String → Bool
  | [], _ => true
  | _ :: _, [] => false
  | a :: as, b :: bs => if a = b then listStrLe as bs else strLt a b

/-- The sort key of `sorted(rings, key=lambda r: (r["pattern_type"], tuple(r["members"])))`. -/
def ringLe (a b : RingC) : Bool :=
  if a.patternType = b.patternType then listStrLe a.members b.members
  else strLt a.patternType b.patternType

/-- The sort key of `suspicious.sort(key=lambda x: (-x["suspicion_score"], x["account_id"]))`. -/
def suspLe (a b : SuspEntry) : Bool :=
  if a.suspicionScore = b.suspicionScore then strLe a.accountId b.accountId
  else decide (b.suspicionScore < a.suspicionScore)

/-- Phase 1 of `compute_scores` for one tagged account: pattern base points
plus the behavioural bonuses, appending bonus tags not already present.
The returned list is the account's (possibly mutated) pattern list. -/
def scoreAccount (profiles : List (String × Profile)) (centrality : List (String × Cent))
    (acc : String) (patterns : List String) : ℚ × List String :=
  let score := (patterns.map patternScore).sum
  let prof := lookupA profiles acc
  let velocity := (prof.map (·.velocity)).getD 0
  let sp1 : ℚ × List String :=
    if 20 < velocity then
      (score + 10, if "high_velocity" ∈ patterns then patterns else patterns ++ ["high_velocity"])
    else (score, patterns)
  let avgAmount := (prof.map (·.avgAmount)).getD 0
  let sp2 : ℚ × List String :=
    if 0 < avgAmount ∧ avgAmount < 500 then
      (sp1.1 + 5, if "small_amounts" ∈ sp1.2 then sp1.2 else sp1.2 ++ ["small_amounts"])
    else sp1
  let cent := lookupA centrality acc
  let betweenness := (cent.map (·.betweenness)).getD 0
  let pagerank := (cent.map (·.pagerank)).getD 0
  let sp3 : ℚ × List String :=
    if (5 / 100 : ℚ) < betweenness then
      (sp2.1 + 15, if "high_betweenness" ∈ sp2.2 then sp2.2 else sp2.2 ++ ["high_betweenness"])
    else if (2 / 100 : ℚ) < betweenness then
      (sp2.1 + 8, if "high_betweenness" ∈ sp2.2 then sp2.2 else sp2.2 ++ ["high_betweenness"])
    else sp2
  let sp4 : ℚ × List String :=
    if (2 / 100 : ℚ) < pagerank then
      (sp3.1 + 5, if "high_pagerank" ∈ sp3.2 then sp3.2 else sp3.2 ++ ["high_pagerank"])
    else sp3
  sp4

/-- Result record of `compute_scores` (the fields the specification's
claims are about; the human-readable justification strings of
`merchant_accounts` are not modelled). -/
structure ScoreResult where
  updatedPatterns : List (String × List String)
  rawScores : List (String × ℚ)
  suspicionScores : List (String × ℚ)
  suspiciousAccounts : List SuspEntry
  fraudRings : List RingOut
deriving DecidableEq

/-- Phase 1 of `compute_scores` over all tagged accounts: per account, the
pre-suppression score and the (possibly bonus-extended) pattern list. -/
def phase1Of (txns : List Txn) (accountPatterns : List (String × List String))
    (centrality : List (String × Cent)) : List (String × ℚ × List String) :=
  accountPatterns.map (fun p =>
    (p.1, scoreAccount (buildProfiles txns) centrality p.1 p.2))

/-- The pattern lists after the bonus-tag mutation of `compute_scores`. -/
def updatedPatternsOf (txns : List Txn) (accountPatterns : List (String × List String))
    (centrality : List (String × Cent)) : List (String × List String) :=
  (phase1Of txns accountPatterns centrality).map (fun p => (p.1, p.2.2))

/-- The post-suppression raw scores: merchant (−30) and payroll (−25)
reductions applied and floored at 0. -/
def rawScoresOf (txns : List Txn) (accountPatterns : List (String × List String))
    (centrality : List (String × Cent)) : List (String × ℚ) :=
  (phase1Of txns accountPatterns centrality).map (fun p =>
    let prof := lookupA (buildProfiles txns) p.1
    let reduction : ℚ :=
      (if isMerchantLike prof p.2.2 (buildProfiles txns) then 30 else 0) +
      (if isPayrollLike prof (lookupA (buildPayrollStats txns) p.1) then 25 else 0)
    (p.1, max 0 (p.2.1 - reduction)))

/-- The normalisation denominator:
`max_raw = max(raw_scores.values()) if raw_scores else 1.0`, replaced by
`1.0` when it equals 0. -/
def maxRawOf (raws : List (String × ℚ)) : ℚ :=
  let maxRaw0 := (maxQ (raws.map (·.2))).getD 1
  if maxRaw0 = 0 then 1 else maxRaw0

/-- The normalised 0–100 suspicion scores, rounded to one decimal. -/
def suspicionScoresOf (txns : List Txn) (accountPatterns : List (String × List String))
    (centrality : List (String × Cent)) : List (String × ℚ) :=
  let rawScores := rawScoresOf txns accountPatterns centrality
  rawScores.map (fun p => (p.1, round1 (min 100 (p.2 / maxRawOf rawScores * 100))))

/-- The scored output rings: candidates sorted by
`(pattern_type, members)`, dense sequential ids, per-ring risk score. -/
def ringResultsOf (txns : List Txn) (rings : List RingC)
    (accountPatterns : List (String × List String))
    (centrality : List (String × Cent)) : List RingOut :=
  let suspicionScores := suspicionScoresOf txns accountPatterns centrality
  (isort ringLe rings).mapIdx (fun idx r =>
    let memberScores := r.members.map (fun m => (lookupA suspicionScores m).getD 0)
    let riskScore : ℚ :=
      if memberScores = [] then 0
      else round1 (min 100 (meanQ memberScores * (11 / 10)))
    { ringId := ringIdStr (idx + 1), memberAccounts := r.members,
      patternType := r.patternType, riskScore := riskScore })

/-- The account-to-ring binding: each account maps to the first sorted
ring containing it. -/
def accountRingMapOf (ringResults : List RingOut) : List (String × String) :=
  ringResults.foldl (fun m r =>
    r.memberAccounts.foldl (fun m' a =>
      if (lookupA m' a).isSome then m' else m' ++ [(a, r.ringId)]) m) []

/-- The `suspicious_accounts` list: flagged accounts (score ≥ 25) with
alphabetically sorted patterns and bound ring id, sorted by descending
score then ascending account id. -/
def suspiciousOf (txns : List Txn) (rings : List RingC)
    (accountPatterns : List (String × List String))
    (centrality : List (String × Cent)) : List SuspEntry :=
  let suspicionScores := suspicionScoresOf txns accountPatterns centrality
  let flagged := suspicionScores.filter (fun p => decide (suspicionThreshold ≤ p.2))
  isort suspLe (flagged.map (fun p =>
    { accountId := p.1, suspicionScore := p.2,
      detectedPatterns := isort strLe
        ((lookupA (updatedPatternsOf txns accountPatterns centrality) p.1).getD []),
      ringId := (lookupA (accountRingMapOf
        (ringResultsOf txns rings accountPatterns centrality)) p.1).getD "NONE" }))

/-- Embedding of `compute_scores`: raw pattern + bonus scores, merchant /
payroll suppression (floored at 0), normalisation to 0–100, thresholding
at 25, ring id assignment in `(pattern_type, members)` order, per-ring
risk scores, and the sorted `suspicious_accounts` list.  Each stage
mirrors one local of the source function. -/
def computeScores (txns : List Txn) (rings : List RingC)
    (accountPatterns : List (String × List String))
    (centrality : List (String × Cent)) : ScoreResult :=
  { updatedPatterns := updatedPatternsOf txns accountPatterns centrality,
    rawScores := rawScoresOf txns accountPatterns centrality,
    suspicionScores := suspicionScoresOf txns accountPatterns centrality,
    suspiciousAccounts := suspiciousOf txns rings accountPatterns centrality,
    fraudRings := ringResultsOf txns rings accountPatterns centrality }

/-- Wrapper for `Batteries.UnionFind.union` on `Nat` indices, mirroring the
source's `uf.union(a, b)` (all call sites pass in-bounds indices). -/
def ufUnion (u : Batteries.UnionFind) (a b : ℕ) : Batteries.UnionFind :=
  if h : a < u.size ∧ b < u.size then u.union ⟨a, h.1⟩ ⟨b, h.2⟩ else u

/-- The `_UnionFind(n)` constructor: `n` isolated nodes. -/
def ufInit (n : ℕ) : Batteries.UnionFind :=
  (fun u => u.push)^[n] Batteries.UnionFind.empty

/-- Run a list of `union` calls in order. -/
def performUnions (uf : Batteries.UnionFind) (ps : List (ℕ × ℕ)) : Batteries.UnionFind :=
  ps.foldl (fun u p => ufUnion u p.1 p.2) uf

/-- Append `v` to the bucket of key `k`, creating the bucket at the end when
absent: one step of building a Python `defaultdict(list)`. -/
def bucketAdd [DecidableEq κ] : List (κ × List α) → κ → α → List (κ × List α)
  | [], k, v => [(k, [v])]
  | p :: rest, k, v =>
    if p.1 = k then (p.1, p.2 ++ [v]) :: rest else p :: bucketAdd rest k v

/-- The inverted index `account → ring indices` of `_merge_overlapping_rings`. -/
def invertedIndex (sets : List (List String)) : List (String × List ℕ) :=
  sets.enum.foldl (fun b p => p.2.foldl (fun b' a => bucketAdd b' a p.1) b) []

/-- The flat `(account, ring index)` pair list underlying `invertedIndex`
(an analysis device: `invertedIndex sets = bucketFold (invIdxPairs sets)`). -/
def invIdxPairs (sets : List (List String)) : List (String × ℕ) :=
  sets.enum.flatMap (fun p => p.2.map (fun a => (a, p.1)))

/-- The union calls issued by `_merge_overlapping_rings`: for each account's
index list, `union(indices[0], indices[j])` for `j = 1, …`. -/
def unionPairs (acctIdx : List (String × List ℕ)) : List (ℕ × ℕ) :=
  acctIdx.foldl (fun ps p => ps ++ (p.2.drop 1).map (fun j => (p.2.headD 0, j))) []

/-- Group `0, …, n-1` into buckets keyed by `root`, in first-occurrence
order (the `components` defaultdict of `_merge_overlapping_rings`). -/
def componentsOf (root : ℕ → ℕ) (n : ℕ) : List (List ℕ) :=
  ((List.range n).foldl (fun b i => bucketAdd b (root i) i) []).map (·.2)

/-- Folding a flat list of `(key, value)` pairs through `bucketAdd`:
the common shape of `invertedIndex` and `componentsOf`, used to reason
about both uniformly. -/
def bucketFold [DecidableEq κ] (qs : List (κ × α)) : List (κ × List α) :=
  qs.foldl (fun b q => bucketAdd b q.1 q.2) []

/-- Join distinct pattern types: `"+".join(patterns) if len(patterns) > 1
else patterns[0]` (the component's pattern list is never empty). -/
def joinPatterns (pats : List String) : String :=
  if 1 < pats.length then String.intercalate "+" pats else pats.headD ""

/-- The union-find state of `_merge_overlapping_rings` after all unions:
rings sharing at least one account are united through each account's
index list. -/
def mergeUF (sets : List (List String)) : Batteries.UnionFind :=
  performUnions (ufInit sets.length) (unionPairs (invertedIndex sets))

/-- Build one merged ring from a component's candidate indices: indices
sorted by member-set size (largest first, ties in first-seen order —
Python's stable `sort(key=len, reverse=True)`), members the sorted union,
pattern types joined in that order. -/
def mergeComponent (rings : List RingC) (sets : List (List String))
    (idxs : List ℕ) : RingC :=
  let sorted := isort (fun i j =>
    decide ((sets.getD j []).length ≤ (sets.getD i []).length)) idxs
  let allMembers := sorted.foldl (fun l i => l ++ sets.getD i []) []
  let pats := sorted.foldl (fun ps i =>
    let pt := (rings.getD i default).patternType
    if pt ∈ ps then ps else ps ++ [pt]) []
  { members := isort strLe (dedupF allMembers), patternType := joinPatterns pats }

/-- Embedding of `_merge_overlapping_rings`: union-find over candidate
indices joined through shared accounts, one merged ring per component. -/
def mergeOverlappingRings (rings : List RingC) : List RingC :=
  if rings.length = 0 then []
  else
    (componentsOf
      (fun i => (mergeUF (rings.map (fun r => dedupF r.members))).rootD i)
      rings.length).map
      (mergeComponent rings (rings.map (fun r => dedupF r.members)))

/-- Loop of `_detect_cycles`: drop cycles shorter than 3 vertices,
deduplicate by vertex set (a `frozenset` is embedded as its sorted
deduplicated element list), stop silently at the cap.  The raw enumeration
`nx.simple_cycles(G, length_bound=5)` is an external library call and is
taken as an input list. -/
def detectCyclesAux (maxCycles : ℕ) (seen acc : List (List String)) :
    List (List String) → List (List String)
  | [] => acc
  | c :: cs =>
    if c.length < 3 then detectCyclesAux maxCycles seen acc cs
    else
      let fs := isort strLe (dedupF c)
      if fs ∈ seen then detectCyclesAux maxCycles seen acc cs
      else
        let acc' := acc ++ [dedupF c]
        if maxCycles ≤ acc'.length then acc'
        else detectCyclesAux maxCycles (seen ++ [fs]) acc' cs

/-- Embedding of `_detect_cycles` over the library's raw cycle list. -/
def detectCycles (rawCycles : List (List String)) (maxCycles : ℕ) : List (List String) :=
  detectCyclesAux maxCycles [] [] rawCycles

/-- Increment the count of `k`, inserting it at the end when absent
(`ids_in_window[cid] += 1` on a `defaultdict(int)`). -/
def incrCount : List (String × ℕ) → String → List (String × ℕ)
  | [], k => [(k, 1)]
  | p :: rest, k =>
    if p.1 = k then (p.1, p.2 + 1) :: rest else p :: incrCount rest k

/-- Decrement the count of `k`, deleting the entry when it reaches 0
(`ids_in_window[lid] -= 1; if == 0: del`). -/
def decrDel : List (String × ℕ) → String → List (String × ℕ)
  | [], _ => []
  | p :: rest, k =>
    if p.1 = k then (if p.2 ≤ 1 then rest else (p.1, p.2 - 1) :: rest)
    else p :: decrDel rest k

/-- The 72-hour window of `_rolling_window_check`, in seconds. -/
def windowSeconds : ℤ := 259200

/-- The `while (arr[right,1] - arr[left,1]) > window_td` loop advancing
`left`.  The fuel `right - left` is exact: the guard compares the element
at `left` with the one at `right` and is false once `left = right`, so the
loop runs at most `right - left` times on any input. -/
def shrinkWindow (arr : List (String × ℤ)) (rt : ℤ) :
    ℕ → ℕ → List (String × ℕ) → ℕ → ℕ × List (String × ℕ) × ℕ
  | 0, left, counts, uc => (left, counts, uc)
  | fuel + 1, left, counts, uc =>
    if windowSeconds < rt - (arr.getD left ("", 0)).2 then
      let lid := (arr.getD left ("", 0)).1
      let uc' := if lookupA counts lid = some 1 then uc - 1 else uc
      shrinkWindow arr rt fuel (left + 1) (decrDel counts lid) uc'
    else (left, counts, uc)

/-- The `for right in range(n)` loop of `_rolling_window_check`; the fuel
is `n - right`, exact by construction. -/
def rwcAux (arr : List (String × ℤ)) (threshold : ℕ) :
    ℕ → ℕ → ℕ → List (String × ℕ) → ℕ → Option (List String)
  | 0, _, _, _, _ => none
  | fuel + 1, right, left, counts, uc =>
    let cid := (arr.getD right ("", 0)).1
    let counts₁ := incrCount counts cid
    let uc₁ := if lookupA counts₁ cid = some 1 then uc + 1 else uc
    let s := shrinkWindow arr (arr.getD right ("", 0)).2 (right - left) left counts₁ uc₁
    if threshold ≤ s.2.2 then some (s.2.1.map (·.1))
    else rwcAux arr threshold fuel (right + 1) s.1 s.2.1 s.2.2

/-- Embedding of `_rolling_window_check`. -/
def rollingWindowCheck (arr : List (String × ℤ)) (threshold : ℕ) : Option (List String) :=
  if arr.length < threshold then none
  else rwcAux arr threshold arr.length 0 0 [] 0

/-- Transactions sorted by timestamp (`df.sort_values("timestamp")`; ties
among equal timestamps are kept in input order in the embedding). -/
def sortByTs (txns : List Txn) : List Txn :=
  isort (fun a b => decide (a.timestamp ≤ b.timestamp)) txns

/-- One fan-in probe: the time-sorted inbound list of `receiver` fed to the
rolling window check; members are `senders_in_window ∪ {receiver}`. -/
def fanInOne (dfSorted : List Txn) (receiver : String) : Option RingC :=
  let sub := (dfSorted.filter (fun t => decide (t.receiver = receiver))).map
    (fun t => (t.sender, t.timestamp))
  (rollingWindowCheck sub 10).map (fun s =>
    { members := dedupF (s ++ [receiver]), patternType := "fan_in" })

/-- One fan-out probe (symmetric, outbound, distinct receivers). -/
def fanOutOne (dfSorted : List Txn) (sender : String) : Option RingC :=
  let sub := (dfSorted.filter (fun t => decide (t.sender = sender))).map
    (fun t => (t.receiver, t.timestamp))
  (rollingWindowCheck sub 10).map (fun s =>
    { members := dedupF (s ++ [sender]), patternType := "fan_out" })

/-- The receivers probed for fan-in: those with at least 10 distinct
senders in the full ledger, in sorted order (pandas `groupby` sorts its
keys). -/
def fanInReceivers (txns : List Txn) : List String :=
  (isort strLe (dedupF (txns.map (·.receiver)))).filter (fun r =>
    decide (10 ≤ (dedupF ((txns.filter (fun t =>
      decide (t.receiver = r))).map (·.sender))).length))

/-- The senders probed for fan-out. -/
def fanOutSenders (txns : List Txn) : List String :=
  (isort strLe (dedupF (txns.map (·.sender)))).filter (fun s =>
    decide (10 ≤ (dedupF ((txns.filter (fun t =>
      decide (t.sender = s))).map (·.receiver))).length))

/-- Embedding of `_detect_smurfing`. -/
def detectSmurfing (txns : List Txn) : List RingC :=
  let dfSorted := sortByTs txns
  ((fanInReceivers txns).filterMap (fanInOne dfSorted)) ++
    ((fanOutSenders txns).filterMap (fanOutOne dfSorted))

/-- Lifetime transaction count of an account (each transaction counts once
for its sender and once for its receiver; a self-loop counts twice). -/
def txCount (txns : List Txn) (a : String) : ℕ :=
  (txns.filter (fun t => decide (t.sender = a))).length +
    (txns.filter (fun t => decide (t.receiver = a))).length

/-- Graph nodes in `nx.DiGraph` insertion order (sender then receiver of
each added edge). -/
def nodeList (txns : List Txn) : List String :=
  dedupF (txns.flatMap (fun t => [t.sender, t.receiver]))

/-- Graph edges: one directed edge per distinct `(sender, receiver)` pair
(`nx.DiGraph` collapses parallel transactions), in insertion order. -/
def edgeList (txns : List Txn) : List (String × String) :=
  dedupF (txns.map (fun t => (t.sender, t.receiver)))

/-- `G.successors(u)` in adjacency insertion order. -/
def successors (txns : List Txn) (u : String) : List String :=
  ((edgeList txns).filter (fun e => decide (e.1 = u))).map (·.2)

/-- The `for neighbor in G.successors(current)` loop body of
`_detect_shell_networks`: skip visited nodes, record qualifying chains of
at least 4 nodes with all-shell interiors (deduplicated by vertex set),
break on reaching the cap, push extensions shorter than `max_depth`.
Returns the updated `(chains, seen)` and the frames pushed, in push
order. -/
def processNeighbors (shellB : String → Bool) (maxChains maxDepth : ℕ)
    (visited chain : List String) :
    List String → List (List String) → List (List String) →
    List (List String) × List (List String) × List (String × List String × List String)
  | [], chains, seen => (chains, seen, [])
  | nb :: rest, chains, seen =>
    if nb ∈ visited then
      processNeighbors shellB maxChains maxDepth visited chain rest chains seen
    else
      let newChain := chain ++ [nb]
      let newVisited := visited ++ [nb]
      let intermediates := (newChain.drop 1).dropLast
      let fs := isort strLe (dedupF newChain)
      let recordIt := decide (4 ≤ newChain.length) && !intermediates.isEmpty &&
        intermediates.all shellB && !(decide (fs ∈ seen))
      let chains' := if recordIt then chains ++ [dedupF newChain] else chains
      let seen' := if recordIt then seen ++ [fs] else seen
      if recordIt && decide (maxChains ≤ chains'.length) then (chains', seen', [])
      else
        let pushes := if newChain.length < maxDepth then [(nb, newVisited, newChain)] else []
        let res := processNeighbors shellB maxChains maxDepth visited chain rest chains' seen'
        (res.1, res.2.1, pushes ++ res.2.2)

/-- The `while stack and len(chains) < max_chains` loop of
`_detect_shell_networks`.  The Python stack's top (`list.pop()`) is the
head of the embedded list, so frames pushed in neighbour order are
prepended reversed.  Fuel only bounds the iteration count; every call
passes enough fuel for the loop to run to completion (each iteration
strictly decreases `Σ_frames (|V|+1)^(6 - len(chain))`, which starts below
`(|V|+1)^6` for the singleton initial stack). -/
def dfsWhile (shellB : String → Bool) (succs : String → List String)
    (maxChains maxDepth : ℕ) :
    ℕ → List (String × List String × List String) → List (List String) →
    List (List String) → List (List String) × List (List String)
  | 0, _, chains, seen => (chains, seen)
  | fuel + 1, stack, chains, seen =>
    if maxChains ≤ chains.length then (chains, seen)
    else
      match stack with
      | [] => (chains, seen)
      | (current, visited, chain) :: rest =>
        if maxDepth < chain.length then
          dfsWhile shellB succs maxChains maxDepth fuel rest chains seen
        else
          let res := processNeighbors shellB maxChains maxDepth
            visited chain (succs current) chains seen
          dfsWhile shellB succs maxChains maxDepth fuel
            (res.2.2.reverse ++ rest) res.1 res.2.1

/-- Embedding of `_detect_shell_networks`: shell accounts are those with 2
or 3 lifetime transactions; iterative DFS from every node, capped at 100
chains and 6-node chain depth (`max_depth = 6` bounds `len(chain)`, the
node count). -/
def detectShellNetworks (txns : List Txn) : List (List String) :=
  let shellB : String → Bool := fun a => decide (2 ≤ txCount txns a ∧ txCount txns a ≤ 3)
  if ((nodeList txns).filter shellB).isEmpty then []
  else
    let fuel := ((nodeList txns).length + 1) ^ 6
    (((nodeList txns).foldl (fun st start =>
      if (100 : ℕ) ≤ st.1.length then st
      else dfsWhile shellB (successors txns) 100 6 fuel
        [(start, [start], [start])] st.1 st.2)
      (([], []) : List (List String) × List (List String)))).1

/-- Append `tag` to the account's pattern list when not already present
(`if pat not in account_patterns[acc]: account_patterns[acc].append(pat)`
on a `defaultdict(list)`, which creates absent keys at the end). -/
def appendTag (ap : List (String × List String)) (acc tag : String) :
    List (String × List String) :=
  match lookupA ap acc with
  | none => ap ++ [(acc, [tag])]
  | some tags =>
    if tag ∈ tags then ap
    else ap.map (fun p => if p.1 = acc then (p.1, tags ++ [tag]) else p)

/-- Result of `detect_all` (centrality, an external library computation,
is handled separately; see the deterministic-sampling claim). -/
structure DetectResult where
  rings : List RingC
  accountPatterns : List (String × List String)

/-- Embedding of `detect_all` over the raw cycle enumeration provided by
`nx.simple_cycles(G, length_bound=5)` (an external library call, passed as
an input): cycle candidates and `cycle_length_k` tags, smurfing candidates
and `fan_in`/`fan_out` tags, shell chains and `layered_shell` tags, then
consolidation of overlapping candidates. -/
def detectAll (txns : List Txn) (rawCycles : List (List String)) : DetectResult :=
  let cycleRings := detectCycles rawCycles 500
  let step1 := cycleRings.foldl (fun (st : List RingC × List (String × List String)) cm =>
    let ring : RingC := { members := isort strLe cm, patternType := "cycle" }
    let ap' := cm.foldl (fun ap acc =>
      appendTag ap acc ("cycle_length_" ++ toString cm.length)) st.2
    (st.1 ++ [ring], ap')) ([], [])
  let step2 := (detectSmurfing txns).foldl
    (fun (st : List RingC × List (String × List String)) smurf =>
      let ring : RingC := { members := isort strLe smurf.members,
                            patternType := smurf.patternType }
      let ap' := smurf.members.foldl (fun ap acc => appendTag ap acc smurf.patternType) st.2
      (st.1 ++ [ring], ap')) step1
  let step3 := (detectShellNetworks txns).foldl
    (fun (st : List RingC × List (String × List String)) sm =>
      let ring : RingC := { members := isort strLe sm, patternType := "layered_shell" }
      let ap' := sm.foldl (fun ap acc => appendTag ap acc "layered_shell") st.2
      (st.1 ++ [ring], ap')) step2
  { rings := mergeOverlappingRings step3.1, accountPatterns := step3.2 }

/-- The sorted-index 80th percentile used by the claims (`int(len * 0.80)`
into the ascending sort, default 15 on the empty list). -/
def percentile80 (l : List ℕ) : ℕ :=
  (isort (fun a b => decide (a ≤ b)) l).getD (4 * l.length / 5) 15

/-- The upper median used by the claims (`len // 2` into the ascending
sort, default 168 on the empty list). -/
def medianSpec (l : List ℚ) : ℚ :=
  (isort (fun a b => decide (a ≤ b)) l).getD (l.length / 2) 168

/-- Specification-side merchant predicate, following the claim's wording:
no tag containing the substring `cycle`; counterparty and time-span
thresholds adaptive to the batch, except fixed values (15 counterparties,
168 hours) when the dataset has fewer than 2 accounts; inbound-heavy
(`received_count > 2 × sent_count`). -/
def merchantLikeSpec (txns : List Txn) (patterns : List String) (acc : String) : Prop :=
  let profiles := buildProfiles txns
  match lookupA profiles acc with
  | none => False
  | some p =>
    (¬ ∃ t ∈ patterns, "cycle".toList <:+: t.toList) ∧
    (if profiles.length < 2 then
        15 ≤ p.counterpartyCount ∧ (168 : ℚ) ≤ p.timeSpanHours
      else
        max 3 (percentile80 (profiles.map (·.2.counterpartyCount))) ≤ p.counterpartyCount ∧
        max 2 (medianSpec (profiles.map (·.2.timeSpanHours))) ≤ p.timeSpanHours) ∧
    2 * p.sentCount < p.receivedCount

/-- The time-sorted inbound `(sender, timestamp)` list of a receiver: the
`sub` array fed to `_rolling_window_check` for fan-in. -/
def inboundList (txns : List Txn) (r : String) : List (String × ℤ) :=
  ((sortByTs txns).filter (fun t => decide (t.receiver = r))).map
    (fun t => (t.sender, t.timestamp))

/-- The counterparties of the contiguous window `[l, r]` of a
`(counterparty, timestamp)` array. -/
def windowSlice (arr : List (String × ℤ)) (l r : ℕ) : List String :=
  ((arr.drop l).take (r + 1 - l)).map (·.1)

/-- Number of distinct elements of a list. -/
def distinctCount (l : List String) : ℕ := (dedupF l).length

/-- Existence of a 72-hour window (of the time-ascending array) containing
at least `threshold` distinct counterparties. -/
def hasFanInWindow (arr : List (String × ℤ)) (threshold : ℕ) : Prop :=
  ∃ l r, l ≤ r ∧ r < arr.length ∧
    (arr.getD r ("", 0)).2 - (arr.getD l ("", 0)).2 ≤ windowSeconds ∧
    threshold ≤ distinctCount (windowSlice arr l r)

/-- A (directed) walk along graph edges: consecutive list elements are
edges of the transaction graph. -/
def isDirectedPath (txns : List Txn) (p : List String) : Prop :=
  p.Chain' (fun a b => (a, b) ∈ edgeList txns)

/-- Shell account: 2 or 3 lifetime transactions. -/
def isShellAcct (txns : List Txn) (a : String) : Prop :=
  2 ≤ txCount txns a ∧ txCount txns a ≤ 3

/-- Level-synchronous BFS carrying, per settled node, its distance from
the source and its number of shortest paths from the source. -/
def bfsLevels (succs : String → List String) :
    ℕ → List (String × ℕ × ℕ) → List (String × ℕ) → ℕ → List (String × ℕ × ℕ)
  | 0, done, _, _ => done
  | fuel + 1, done, frontier, d =>
    if frontier.isEmpty then done
    else
      let cand := (dedupF (frontier.flatMap (fun p => succs p.1))).filter
        (fun v => decide (lookupA done v = none))
      let next := cand.map (fun v =>
        (v, frontier.foldl (fun acc p => if v ∈ succs p.1 then acc + p.2 else acc) 0))
      bfsLevels succs fuel (done ++ next.map (fun p => (p.1, d, p.2))) next (d + 1)

/-- Distances and shortest-path counts from a source. -/
def distsFrom (succs : String → List String) (nodes : List String) (s : String) :
    List (String × ℕ × ℕ) :=
  bfsLevels succs (nodes.length + 1) [(s, 0, 1)] [(s, 1)] 1

/-- Pair dependency of source `s` on `v`:
`Σ_t σ_sv · σ_vt / σ_st` over targets `t` with `d(s,t) = d(s,v) + d(v,t)`,
`t ≠ s`, `t ≠ v`, `v ≠ s`. -/
def pairDep (succs : String → List String) (nodes : List String) (s v : String) : ℚ :=
  if v = s then 0
  else
    let ts := distsFrom succs nodes s
    let tv := distsFrom succs nodes v
    nodes.foldl (fun acc t =>
      if t = s ∨ t = v then acc
      else
        match lookupA ts t, lookupA ts v, lookupA tv t with
        | some pst, some psv, some pvt =>
          if pst.1 = psv.1 + pvt.1 then acc + (psv.2 * pvt.2 : ℚ) / pst.2 else acc
        | _, _, _ => acc) 0

/-- Modelled from the spec: `_compute_centrality` calls
`nx.betweenness_centrality(G, normalized=True, k=min(|V|, 100))` with its
default `seed=None`, so the `k` source nodes are drawn from an unseeded
global generator; the drawn sample is therefore an external input of the
computation, modelled here as an explicit argument.  The estimate is the
normalized directed Brandes sum over the sampled sources, rescaled by
`1/((n-1)(n-2))` and by `n/k` for the sampling. -/
def betweennessSampled (txns : List Txn) (sample : List String) (v : String) : ℚ :=
  let nodes := nodeList txns
  let n := nodes.length
  let k := min n 100
  let scale : ℚ :=
    (if n ≤ 2 then 1 else 1 / ((n - 1 : ℕ) * (n - 2 : ℕ) : ℚ)) * ((n : ℚ) / k)
  scale * sample.foldl (fun acc s => acc + pairDep (successors txns) nodes s v) 0

/-- A fan-style concrete transaction: sender `S__i` pays `R` at hour `i`. -/
def mkFanTxn (i : ℕ) : Txn :=
  { txnId := "T" ++ toString i, sender := "S" ++ toString i, receiver := "R",
    amount := 50, timestamp := 3600 * i }

/-- Concrete ledger with `n` distinct senders paying a common receiver
within `n` hours. -/
def fanTxns (n : ℕ) : List Txn := (List.range n).map mkFanTxn

/-- Concrete ledger forming the pure directed chain `A1 → A2 → ⋯ → An`. -/
def chainTxns (n : ℕ) : List Txn :=
  (List.range (n - 1)).map (fun i =>
    { txnId := "T" ++ toString i, sender := "A" ++ toString (i + 1),
      receiver := "A" ++ toString (i + 2), amount := 100, timestamp := 3600 * i })

/-- The two candidates emitted (in `detect_all` emission order) when a
3-cycle `{A,B,C}` and a fan-in on `{C, X01…X10}` both trigger. -/
def cycleFanInCandidates : List RingC :=
  [{ members := ["A", "B", "C"], patternType := "cycle" },
   { members := ["C", "X01", "X02", "X03", "X04", "X05", "X06", "X07", "X08", "X09", "X10"],
     patternType := "fan_in" }]

/-- Concrete ledger whose graph has 102 nodes: the path `N0 → N1 → N2`
plus 99 isolated self-loop accounts, so that `k = min(|V|, 100) < |V|`
and the betweenness sample cannot cover every node. -/
def txns102 : List Txn :=
  [{ txnId := "T0", sender := "N0", receiver := "N1", amount := 10, timestamp := 0 },
   { txnId := "T1", sender := "N1", receiver := "N2", amount := 10, timestamp := 3600 }] ++
  (List.range 99).map (fun i =>
    { txnId := "U" ++ toString i, sender := "N" ++ toString (i + 3),
      receiver := "N" ++ toString (i + 3), amount := 1, timestamp := 7200 + i })

/-- The pattern tags the detectors of `detect_all` can emit:
`cycle_length_k` for a consolidated cycle of `k` vertices, `fan_in`,
`fan_out`, and `layered_shell`. -/
def detectorTag (t : String) : Prop :=
  (∃ k : ℕ, t = "cycle_length_" ++ toString k) ∨
    t = "fan_in" ∨ t = "fan_out" ∨ t = "layered_shell"

/-- The invariant `detect_all` maintains on `account_patterns`: every
tagged account's tag list is nonempty and all its tags satisfy `P`. -/
def tagInv (P : String → Prop) (ap : List (String × List String)) : Prop :=
  ∀ p ∈ ap, p.2 ≠ [] ∧ ∀ t ∈ p.2, P t

/-- A qualifying shell chain: at least 4 and at most `maxDepth` nodes,
pairwise-distinct vertices, consecutive vertices joined by graph edges,
every interior vertex a shell account. -/
def chainOK (txns : List Txn) (maxDepth : ℕ) (c : List String) : Prop :=
  4 ≤ c.length ∧ c.length ≤ maxDepth ∧ c.Nodup ∧ isDirectedPath txns c ∧
    ∀ a ∈ (c.drop 1).dropLast, isShellAcct txns a

/-- Invariant of a DFS stack frame `(current, visited, chain)` of
`_detect_shell_networks`: the visited list is the chain, the chain is a
nonempty simple directed path ending at `current`, and it is short enough
to have been pushed (`len(new_chain) < max_depth`). -/
def frameOK (txns : List Txn) (maxDepth : ℕ)
    (f : String × List String × List String) : Prop :=
  f.2.1 = f.2.2 ∧ f.2.2 ≠ [] ∧ f.2.2.Nodup ∧ isDirectedPath txns f.2.2 ∧
    f.2.2.getLast? = some f.1 ∧ f.2.2.length + 1 ≤ maxDepth

/-- The window content `arr[l:r]` (half-open) as its counterparty ids:
the multiset `_rolling_window_check` tracks in `ids_in_window`. -/
def sliceIds (arr : List (String × ℤ)) (l r : ℕ) : List String :=
  ((arr.drop l).take (r - l)).map (·.1)

/-- Representation invariant of the `(ids_in_window, unique_count)` state
of `_rolling_window_check` against the window content `S`: keys are
distinct, each key's value is its number of occurrences in `S` (an absent
key occurs 0 times), values are positive (a key is deleted when its count
reaches 0), and `unique_count` is the number of keys. -/
def cInv (S : List String) (counts : List (String × ℕ)) (uc : ℕ) : Prop :=
  (counts.map (·.1)).Nodup ∧
  (∀ k, (lookupA counts k).getD 0 = S.count k) ∧
  (∀ p ∈ counts, 0 < p.2) ∧
  uc = counts.length

/-- Invariant of the `(chains, seen)` accumulator of
`_detect_shell_networks`: every recorded chain qualifies, the cap holds,
every recorded chain's vertex set is in `seen`, and no two recorded
chains share a vertex set. -/
def stateInv (txns : List Txn) (maxChains maxDepth : ℕ)
    (chains seen : List (List String)) : Prop :=
  (∀ c ∈ chains, chainOK txns maxDepth c) ∧ chains.length ≤ maxChains ∧
    (∀ c ∈ chains, isort strLe (dedupF c) ∈ seen) ∧
    List.Pairwise (fun c₁ c₂ => isort strLe (dedupF c₁) ≠ isort strLe (dedupF c₂))
      chains

/-! ### Library lemmas about the embedding's basic building blocks -/

theorem mem_dedupFAux [DecidableEq α] {seen l : List α} {a : α} :
    a ∈ dedupFAux seen l ↔ a ∈ l ∧ a ∉ seen := by
  induction l generalizing seen with
  | nil => simp [dedupFAux]
  | cons b bs ih =>
    by_cases hb : b ∈ seen
    · rw [dedupFAux, if_pos hb, ih]
      simp only [List.mem_cons]
      constructor
      · rintro ⟨h1, h2⟩
        exact ⟨Or.inr h1, h2⟩
      · rintro ⟨h1, h2⟩
        rcases h1 with rfl | h1
        · exact absurd hb h2
        · exact ⟨h1, h2⟩
    · rw [dedupFAux, if_neg hb]
      simp only [List.mem_cons, ih, not_or]
      by_cases hab : a = b
      · subst hab; simp [hb]
      · simp [hab]

theorem nodup_dedupFAux [DecidableEq α] (seen l : List α) :
    (dedupFAux seen l).Nodup := by
  induction l generalizing seen with
  | nil => exact List.nodup_nil
  | cons b bs ih =>
    by_cases hb : b ∈ seen
    · rw [dedupFAux, if_pos hb]; exact ih seen
    · rw [dedupFAux, if_neg hb]
      refine List.nodup_cons.mpr ⟨fun hmem => ?_, ih (b :: seen)⟩
      exact (mem_dedupFAux.mp hmem).2 (List.mem_cons_self b seen)

theorem mem_dedupF [DecidableEq α] {l : List α} {a : α} :
    a ∈ dedupF l ↔ a ∈ l := by
  simp [dedupF, mem_dedupFAux]

theorem nodup_dedupF [DecidableEq α] (l : List α) : (dedupF l).Nodup :=
  nodup_dedupFAux [] l

theorem dedupFAux_eq_self [DecidableEq α] {seen l : List α}
    (hd : ∀ a ∈ l, a ∉ seen) (hl : l.Nodup) : dedupFAux seen l = l := by
  induction l generalizing seen with
  | nil => rfl
  | cons b bs ih =>
    have hb : b ∉ seen := hd b (List.mem_cons_self b bs)
    rw [dedupFAux, if_neg hb]
    have hnb := List.nodup_cons.mp hl
    refine congrArg (b :: ·) (ih (fun a ha => ?_) hnb.2)
    simp only [List.mem_cons, not_or]
    exact ⟨fun hab => hnb.1 (hab ▸ ha), hd a (List.mem_cons_of_mem _ ha)⟩

theorem dedupF_eq_self [DecidableEq α] {l : List α} (hl : l.Nodup) :
    dedupF l = l :=
  dedupFAux_eq_self (fun _ _ => List.not_mem_nil _) hl

theorem dedupF_toFinset [DecidableEq α] (l : List α) :
    (dedupF l).toFinset = l.toFinset := by
  ext a; simp [mem_dedupF]

theorem length_dedupF_eq_card [DecidableEq α] (l : List α) :
    (dedupF l).length = l.toFinset.card := by
  rw [← List.toFinset_card_of_nodup (nodup_dedupF l), dedupF_toFinset]

theorem isort_perm (le : α → α → Bool) (l : List α) : List.Perm (isort le l) l :=
  List.perm_insertionSort _ l

theorem mem_isort {le : α → α → Bool} {l : List α} {a : α} :
    a ∈ isort le l ↔ a ∈ l :=
  (isort_perm le l).mem_iff

theorem nodup_isort {le : α → α → Bool} {l : List α} (hl : l.Nodup) :
    (isort le l).Nodup :=
  ((isort_perm le l).nodup_iff).mpr hl

theorem sorted_isort {le : α → α → Bool}
    (htot : ∀ a b, le a b = true ∨ le b a = true)
    (htrans : ∀ a b c, le a b = true → le b c = true → le a c = true)
    (l : List α) : List.Sorted (fun a b => le a b = true) (isort le l) := by
  haveI : IsTotal α (fun a b => le a b = true) := ⟨htot⟩
  haveI : IsTrans α (fun a b => le a b = true) := ⟨fun a b c => htrans a b c⟩
  exact List.sorted_insertionSort _ l

theorem isort_eq_self {le : α → α → Bool} {l : List α}
    (h : l.Pairwise (fun a b => le a b = true)) : isort le l = l := by
  induction l with
  | nil => rfl
  | cons a l ih =>
    have hp := List.pairwise_cons.mp h
    rw [isort, List.insertionSort]
    rw [show List.insertionSort (fun a b => le a b = true) l = l from ih hp.2]
    cases l with
    | nil => rfl
    | cons b bs => simp [List.orderedInsert, hp.1 b (List.mem_cons_self b bs)]

theorem charListLe_total : ∀ a b, charListLe a b = true ∨ charListLe b a = true
  | [], _ => Or.inl rfl
  | _ :: _, [] => Or.inr rfl
  | a :: as, b :: bs => by
    rcases Nat.lt_trichotomy a.toNat b.toNat with h | h | h
    · left; simp [charListLe, h]
    · have h' : ¬ a.toNat < b.toNat := by omega
      have h'' : ¬ b.toNat < a.toNat := by omega
      rcases charListLe_total as bs with ih | ih
      · left; simp [charListLe, h', h'', ih]
      · right; simp [charListLe, h', h'', ih]
    · right; simp [charListLe, h]

theorem charListLe_trans : ∀ a b c, charListLe a b = true → charListLe b c = true →
    charListLe a c = true
  | [], _, _, _, _ => rfl
  | _ :: _, [], _, hab, _ => by simp [charListLe] at hab
  | _ :: _, _ :: _, [], _, hbc => by simp [charListLe] at hbc
  | a :: as, b :: bs, c :: cs, hab, hbc => by
    rw [charListLe] at hab hbc ⊢
    rcases Nat.lt_trichotomy a.toNat b.toNat with h1 | h1 | h1
    · rcases Nat.lt_trichotomy b.toNat c.toNat with h2 | h2 | h2
      · simp [h1.trans h2]
      · simp [show a.toNat < c.toNat by omega]
      · rw [if_neg (by omega), if_pos h2] at hbc
        simp at hbc
    · rcases Nat.lt_trichotomy b.toNat c.toNat with h2 | h2 | h2
      · simp [show a.toNat < c.toNat by omega]
      · rw [if_neg (by omega), if_neg (by omega)] at hab
        rw [if_neg (by omega), if_neg (by omega)] at hbc
        rw [if_neg (by omega), if_neg (by omega)]
        exact charListLe_trans as bs cs hab hbc
      · rw [if_neg (by omega), if_pos h2] at hbc
        simp at hbc
    · rw [if_neg (by omega), if_pos h1] at hab
      simp at hab

theorem strLe_total (a b : String) : strLe a b = true ∨ strLe b a = true :=
  charListLe_total _ _

theorem strLe_trans (a b c : String) (hab : strLe a b = true)
    (hbc : strLe b c = true) : strLe a c = true :=
  charListLe_trans _ _ _ hab hbc

theorem roundHalfEven_nonneg {x : ℚ} (hx : 0 ≤ x) : 0 ≤ roundHalfEven x := by
  have hf : (0 : ℤ) ≤ ⌊x⌋ := Int.floor_nonneg.mpr hx
  unfold roundHalfEven
  split_ifs <;> omega

theorem roundHalfEven_le {x : ℚ} {B : ℤ} (hx : x ≤ B) : roundHalfEven x ≤ B := by
  have hf : ⌊x⌋ ≤ B := by
    have := Int.floor_le_floor hx
    simpa using this
  unfold roundHalfEven
  split_ifs with h1 h2 h3
  · exact hf
  · rcases lt_or_eq_of_le hf with h | h
    · omega
    · exfalso
      have hx' : x - ⌊x⌋ ≤ 0 := by rw [h]; linarith
      linarith
  · exact hf
  · rcases lt_or_eq_of_le hf with h | h
    · omega
    · exfalso
      have hx' : x - ⌊x⌋ ≤ 0 := by rw [h]; linarith
      linarith

theorem round1_nonneg {x : ℚ} (hx : 0 ≤ x) : 0 ≤ round1 x := by
  have h := roundHalfEven_nonneg (x := 10 * x) (by linarith)
  unfold round1
  have h' : (0 : ℚ) ≤ (roundHalfEven (10 * x) : ℚ) := by exact_mod_cast h
  linarith

theorem round1_le_100 {x : ℚ} (hx : x ≤ 100) : round1 x ≤ 100 := by
  have h : roundHalfEven (10 * x) ≤ (1000 : ℤ) := by
    apply roundHalfEven_le
    push_cast
    linarith
  have h' : (roundHalfEven (10 * x) : ℚ) ≤ 1000 := by exact_mod_cast h
  unfold round1
  linarith

theorem foldl_max_mem (x : ℚ) (l : List ℚ) :
    l.foldl max x = x ∨ l.foldl max x ∈ l := by
  induction l generalizing x with
  | nil => exact Or.inl rfl
  | cons b bs ih =>
    rw [List.foldl_cons]
    rcases ih (max x b) with h | h
    · rcases max_choice x b with hm | hm
      · exact Or.inl (h.trans hm)
      · exact Or.inr (by rw [h, hm]; exact List.mem_cons_self b bs)
    · exact Or.inr (List.mem_cons_of_mem _ h)

theorem le_foldl_max (x : ℚ) (l : List ℚ) : x ≤ l.foldl max x := by
  induction l generalizing x with
  | nil => exact le_refl x
  | cons b bs ih =>
    rw [List.foldl_cons]
    exact le_trans (le_max_left x b) (ih (max x b))

theorem mem_le_foldl_max {y : ℚ} {l : List ℚ} (hy : y ∈ l) (x : ℚ) :
    y ≤ l.foldl max x := by
  induction l generalizing x with
  | nil => exact absurd hy (List.not_mem_nil y)
  | cons b bs ih =>
    rw [List.foldl_cons]
    rcases List.mem_cons.mp hy with rfl | h
    · exact le_trans (le_max_right x y) (le_foldl_max _ _)
    · exact ih h _

theorem maxQ_mem {l : List ℚ} {m : ℚ} (h : maxQ l = some m) : m ∈ l := by
  cases l with
  | nil => simp [maxQ] at h
  | cons x xs =>
    simp only [maxQ, Option.some.injEq] at h
    subst h
    rcases foldl_max_mem x xs with h | h
    · rw [h]; exact List.mem_cons_self x xs
    · exact List.mem_cons_of_mem _ h

theorem maxQ_ge {l : List ℚ} {m y : ℚ} (h : maxQ l = some m) (hy : y ∈ l) :
    y ≤ m := by
  cases l with
  | nil => simp [maxQ] at h
  | cons x xs =>
    simp only [maxQ, Option.some.injEq] at h
    subst h
    rcases List.mem_cons.mp hy with rfl | hmem
    · exact le_foldl_max _ _
    · exact mem_le_foldl_max hmem x

/-! ### Scoring-stage lemmas -/

theorem rawScoresOf_nonneg (txns : List Txn) (ap : List (String × List String))
    (cent : List (String × Cent)) :
    ∀ p ∈ rawScoresOf txns ap cent, 0 ≤ p.2 := by
  intro p hp
  unfold rawScoresOf at hp
  rcases List.mem_map.mp hp with ⟨q, _, rfl⟩
  exact le_max_left 0 _

theorem maxRawOf_pos {raws : List (String × ℚ)} (h : ∀ p ∈ raws, 0 ≤ p.2) :
    0 < maxRawOf raws := by
  unfold maxRawOf
  rcases hm : maxQ (raws.map (·.2)) with _ | m
  · rw [hm]; norm_num
  · rw [hm]
    have hmem := maxQ_mem hm
    rcases List.mem_map.mp hmem with ⟨q, hq, hqm⟩
    have h0 : (0 : ℚ) ≤ m := hqm ▸ h q hq
    simp only [Option.getD_some]
    split_ifs with hz
    · norm_num
    · exact lt_of_le_of_ne h0 (Ne.symm hz)

theorem maxRawOf_eq_claim {raws : List (String × ℚ)} (h : ∀ p ∈ raws, 0 ≤ p.2) :
    maxRawOf raws = (match maxQ (raws.map (·.2)) with
      | none => 1
      | some m => if m ≤ 0 then 1 else m) := by
  unfold maxRawOf
  rcases hm : maxQ (raws.map (·.2)) with _ | m
  · rw [hm]; simp
  · rw [hm]
    have hmem := maxQ_mem hm
    rcases List.mem_map.mp hmem with ⟨q, hq, hqm⟩
    have h0 : (0 : ℚ) ≤ m := hqm ▸ h q hq
    simp only [Option.getD_some]
    by_cases hz : m = 0
    · simp [hz]
    · rw [if_neg hz, if_neg (by intro hle; exact hz (le_antisymm hle h0))]

/-! ### Claim theorems -/

/-- C1: in the output of `compute_scores`, the suspicion-score table is
exactly `acc ↦ round(min(100, 100 × raw(acc) / M), 1)` over the
post-suppression raw scores, where `M` is the maximum post-suppression raw
score over the tagged accounts (taken as 1.0 when there are no tagged
accounts or the maximum is ≤ 0); every suspicion score lies in `[0, 100]`,
and an account appears in `suspicious_accounts` iff its suspicion score is
at least the threshold 25.0. -/
theorem C1_score_normalization (txns : List Txn) (rings : List RingC)
    (ap : List (String × List String)) (cent : List (String × Cent)) :
    ((computeScores txns rings ap cent).suspicionScores =
      (computeScores txns rings ap cent).rawScores.map (fun p =>
        (p.1, round1 (min 100 (100 * p.2 /
          (match maxQ ((computeScores txns rings ap cent).rawScores.map (·.2)) with
           | none => 1
           | some m => if m ≤ 0 then 1 else m))))))
    ∧ (∀ p ∈ (computeScores txns rings ap cent).suspicionScores, 0 ≤ p.2 ∧ p.2 ≤ 100)
    ∧ (∀ acc : String,
        (∃ e ∈ (computeScores txns rings ap cent).suspiciousAccounts, e.accountId = acc) ↔
        ∃ s, (acc, s) ∈ (computeScores txns rings ap cent).suspicionScores ∧
          suspicionThreshold ≤ s) := by
  have hnn := rawScoresOf_nonneg txns ap cent
  have hpos := maxRawOf_pos hnn
  have hM := maxRawOf_eq_claim hnn
  refine ⟨?_, ?_, ?_⟩
  · show suspicionScoresOf txns ap cent = _
    unfold suspicionScoresOf
    rw [show (computeScores txns rings ap cent).rawScores = rawScoresOf txns ap cent from rfl,
      ← hM]
    exact List.map_congr_left (fun p _ => by
      have : p.2 / maxRawOf (rawScoresOf txns ap cent) * 100 =
          100 * p.2 / maxRawOf (rawScoresOf txns ap cent) := by ring
      rw [this])
  · intro p hp
    rcases List.mem_map.mp hp with ⟨q, hq, rfl⟩
    have h0 := hnn q hq
    have hy0 : (0 : ℚ) ≤ min 100 (q.2 / maxRawOf (rawScoresOf txns ap cent) * 100) :=
      le_min (by norm_num) (by positivity)
    have hy1 : min 100 (q.2 / maxRawOf (rawScoresOf txns ap cent) * 100) ≤ 100 :=
      min_le_left _ _
    exact ⟨round1_nonneg hy0, round1_le_100 hy1⟩
  · intro acc
    show (∃ e ∈ suspiciousOf txns rings ap cent, e.accountId = acc) ↔ _
    unfold suspiciousOf
    constructor
    · rintro ⟨e, he, hacc⟩
      rw [mem_isort] at he
      rcases List.mem_map.mp he with ⟨p, hp, rfl⟩
      rcases List.mem_filter.mp hp with ⟨hmem, hth⟩
      refine ⟨p.2, ?_, of_decide_eq_true hth⟩
      have : (acc, p.2) = p := Prod.ext hacc.symm rfl
      rw [this]
      exact hmem
    · rintro ⟨s, hs, hth⟩
      exact ⟨_, mem_isort.mpr (List.mem_map.mpr ⟨(acc, s),
        List.mem_filter.mpr ⟨hs, decide_eq_true hth⟩, rfl⟩), rfl⟩

/-- C6: every output ring's risk score is
`round(min(100, 1.1 × mean of members' suspicion scores), 1)`, where a
member absent from the suspicion table contributes 0 to the sum but is
still counted in the denominator, and a ring with no members scores 0. -/
theorem C6_ring_risk_score (txns : List Txn) (rings : List RingC)
    (ap : List (String × List String)) (cent : List (String × Cent)) :
    ∀ r ∈ (computeScores txns rings ap cent).fraudRings,
      r.riskScore = if r.memberAccounts = [] then 0
        else round1 (min 100 ((11 / 10) *
          (sumQ (r.memberAccounts.map (fun m =>
            (lookupA (suspicionScoresOf txns ap cent) m).getD 0)) /
            (r.memberAccounts.length : ℚ)))) := by
  intro r hr
  have hr' : r ∈ ringResultsOf txns rings ap cent := hr
  unfold ringResultsOf at hr'
  rw [List.mapIdx_eq_enum_map] at hr'
  rcases List.mem_map.mp hr' with ⟨⟨i, x⟩, _, rfl⟩
  simp only [Function.uncurry]
  by_cases hx : x.members = []
  · simp [hx, meanQ, sumQ]
  · rw [if_neg (by simpa using hx), if_neg (by simpa using hx)]
    have hlen : (x.members.map (fun m =>
        (lookupA (suspicionScoresOf txns ap cent) m).getD 0)).length =
        x.members.length := List.length_map _ _
    rw [meanQ, hlen]
    ring_nf

theorem C6_ring_risk_score_witness :
    ({ ringId := "RING_001", memberAccounts := ["A"], patternType := "cycle",
       riskScore := 0 } : RingOut).riskScore =
      if ({ ringId := "RING_001", memberAccounts := ["A"], patternType := "cycle",
            riskScore := 0 } : RingOut).memberAccounts = [] then 0
      else round1 (min 100 ((11 / 10) *
        (sumQ (({ ringId := "RING_001", memberAccounts := ["A"], patternType := "cycle",
                  riskScore := 0 } : RingOut).memberAccounts.map (fun m =>
            (lookupA (suspicionScoresOf [] [] []) m).getD 0)) /
          ((({ ringId := "RING_001", memberAccounts := ["A"], patternType := "cycle",
               riskScore := 0 } : RingOut).memberAccounts.length : ℕ) : ℚ)))) :=
  C6_ring_risk_score [] [{ members := ["A"], patternType := "cycle" }] [] []
    { ringId := "RING_001", memberAccounts := ["A"], patternType := "cycle",
      riskScore := 0 }
    (by with_unfolding_all decide)

/-! ### Bucket-fold lemmas (Python `defaultdict(list)` builds) -/

theorem mem_foldl_append {l : List β} {g : β → List γ} {init : List γ} {x : γ} :
    x ∈ l.foldl (fun ps p => ps ++ g p) init ↔ x ∈ init ∨ ∃ p ∈ l, x ∈ g p := by
  induction l generalizing init with
  | nil => simp
  | cons hd tl ih =>
    rw [List.foldl_cons, ih]
    simp only [List.mem_append, List.mem_cons]
    constructor
    · rintro ((h | h) | ⟨p, hp, hx⟩)
      · exact Or.inl h
      · exact Or.inr ⟨hd, Or.inl rfl, h⟩
      · exact Or.inr ⟨p, Or.inr hp, hx⟩
    · rintro (h | ⟨p, rfl | hp, hx⟩)
      · exact Or.inl (Or.inl h)
      · exact Or.inl (Or.inr hx)
      · exact Or.inr ⟨p, hp, hx⟩

theorem bucketAdd_mem_source [DecidableEq κ] {b : List (κ × List α)} {k : κ} {v : α}
    {e : κ × List α} (he : e ∈ bucketAdd b k v) :
    ∀ w ∈ e.2, (∃ vs, (e.1, vs) ∈ b ∧ w ∈ vs) ∨ (e.1 = k ∧ w = v) := by
  induction b with
  | nil =>
    simp only [bucketAdd, List.mem_singleton] at he
    subst he
    intro w hw
    simp only [List.mem_singleton] at hw
    exact Or.inr ⟨rfl, hw⟩
  | cons p rest ih =>
    rw [bucketAdd] at he
    by_cases hk : p.1 = k
    · rw [if_pos hk] at he
      rcases List.mem_cons.mp he with rfl | he'
      · intro w hw
        rcases List.mem_append.mp hw with hw | hw
        · exact Or.inl ⟨p.2, List.mem_cons_self _ _, hw⟩
        · simp only [List.mem_singleton] at hw
          exact Or.inr ⟨hk, hw⟩
      · intro w hw
        exact Or.inl ⟨e.2, List.mem_cons_of_mem _ he', hw⟩
    · rw [if_neg hk] at he
      rcases List.mem_cons.mp he with rfl | he'
      · intro w hw
        exact Or.inl ⟨e.2, List.mem_cons_self _ _, hw⟩
      · intro w hw
        rcases ih he' w hw with ⟨vs, hvs, hws⟩ | h
        · exact Or.inl ⟨vs, List.mem_cons_of_mem _ hvs, hws⟩
        · exact Or.inr h

theorem bucketAdd_nonempty [DecidableEq κ] {b : List (κ × List α)} {k : κ} {v : α}
    (hb : ∀ e ∈ b, e.2 ≠ []) : ∀ e ∈ bucketAdd b k v, e.2 ≠ [] := by
  induction b with
  | nil =>
    intro e he
    simp only [bucketAdd, List.mem_singleton] at he
    subst he; simp
  | cons p rest ih =>
    intro e he
    rw [bucketAdd] at he
    by_cases hk : p.1 = k
    · rw [if_pos hk] at he
      rcases List.mem_cons.mp he with rfl | he'
      · simp
      · exact hb e (List.mem_cons_of_mem _ he')
    · rw [if_neg hk] at he
      rcases List.mem_cons.mp he with rfl | he'
      · exact hb e (List.mem_cons_self _ _)
      · exact ih (fun e' he'' => hb e' (List.mem_cons_of_mem _ he'')) e he'

theorem bucketAdd_persist [DecidableEq κ] {b : List (κ × List α)} {k' : κ} {v' : α}
    {k : κ} {vs : List α} (h : (k, vs) ∈ b) :
    ∃ vs', (k, vs') ∈ bucketAdd b k' v' ∧ vs ⊆ vs' := by
  induction b with
  | nil => exact absurd h (List.not_mem_nil _)
  | cons p rest ih =>
    rw [bucketAdd]
    by_cases hk : p.1 = k'
    · rw [if_pos hk]
      rcases List.mem_cons.mp h with rfl | h'
      · exact ⟨vs ++ [v'], List.mem_cons_self _ _, List.subset_append_left _ _⟩
      · exact ⟨vs, List.mem_cons_of_mem _ h', List.Subset.refl _⟩
    · rw [if_neg hk]
      rcases List.mem_cons.mp h with rfl | h'
      · exact ⟨vs, List.mem_cons_self _ _, List.Subset.refl _⟩
      · rcases ih h' with ⟨vs', hmem, hsub⟩
        exact ⟨vs', List.mem_cons_of_mem _ hmem, hsub⟩

theorem bucketAdd_self [DecidableEq κ] (b : List (κ × List α)) (k : κ) (v : α) :
    ∃ vs, (k, vs) ∈ bucketAdd b k v ∧ v ∈ vs := by
  induction b with
  | nil => exact ⟨[v], List.mem_singleton.mpr rfl, List.mem_singleton.mpr rfl⟩
  | cons p rest ih =>
    rw [bucketAdd]
    by_cases hk : p.1 = k
    · refine ⟨p.2 ++ [v], ?_, List.mem_append.mpr (Or.inr (List.mem_singleton.mpr rfl))⟩
      rw [if_pos hk, hk]
      exact List.mem_cons_self _ _
    · rw [if_neg hk]
      rcases ih with ⟨vs, hmem, hv⟩
      exact ⟨vs, List.mem_cons_of_mem _ hmem, hv⟩

theorem bucketAdd_keys [DecidableEq κ] (b : List (κ × List α)) (k : κ) (v : α) :
    (bucketAdd b k v).map Prod.fst =
      if k ∈ b.map Prod.fst then b.map Prod.fst else b.map Prod.fst ++ [k] := by
  induction b with
  | nil => simp [bucketAdd]
  | cons p rest ih =>
    rw [bucketAdd]
    by_cases hk : p.1 = k
    · rw [if_pos hk]
      simp [hk]
    · rw [if_neg hk]
      simp only [List.map_cons, List.mem_cons]
      rw [ih]
      by_cases hmem : k ∈ rest.map Prod.fst
      · rw [if_pos hmem, if_pos (Or.inr hmem)]
      · rw [if_neg hmem, if_neg (by rintro (h | h); exact hk h.symm; exact hmem h)]
        simp

theorem bucketAdd_keysNodup [DecidableEq κ] {b : List (κ × List α)} {k : κ} {v : α}
    (hb : (b.map Prod.fst).Nodup) : ((bucketAdd b k v).map Prod.fst).Nodup := by
  rw [bucketAdd_keys]
  split_ifs with h
  · exact hb
  · rw [List.nodup_append]
    exact ⟨hb, List.nodup_singleton _,
      fun a ha hk => h (List.mem_singleton.mp hk ▸ ha)⟩

theorem bucketAdd_absent [DecidableEq κ] {b : List (κ × List α)} {k : κ} (v : α)
    (h : k ∉ b.map Prod.fst) : bucketAdd b k v = b ++ [(k, [v])] := by
  induction b with
  | nil => rfl
  | cons p rest ih =>
    simp only [List.map_cons, List.mem_cons, not_or] at h
    rw [bucketAdd, if_neg (fun he => h.1 he.symm), List.cons_append]
    rw [ih h.2]

theorem keysNodup_assoc [DecidableEq κ] {r : List (κ × List α)}
    (hnd : (r.map Prod.fst).Nodup) {k : κ} {v1 v2 : List α}
    (h1 : (k, v1) ∈ r) (h2 : (k, v2) ∈ r) : v1 = v2 := by
  induction r with
  | nil => exact absurd h1 (List.not_mem_nil _)
  | cons p rest ih =>
    simp only [List.map_cons, List.nodup_cons] at hnd
    rcases List.mem_cons.mp h1 with rfl | h1' <;>
      rcases List.mem_cons.mp h2 with he | h2'
    · exact (congrArg Prod.snd he).symm
    · exact absurd (List.mem_map.mpr ⟨_, h2', rfl⟩) hnd.1
    · exact absurd (List.mem_map.mpr ⟨_, h1', by rw [← he]⟩) hnd.1
    · exact ih hnd.2 h1' h2'

theorem bucketFold_source [DecidableEq κ] {qs : List (κ × α)} :
    ∀ e ∈ bucketFold qs, ∀ w ∈ e.2, (e.1, w) ∈ qs := by
  suffices h : ∀ (b : List (κ × List α)),
      (∀ e ∈ b, ∀ w ∈ e.2, (e.1, w) ∈ qs) →
      (∀ q ∈ qs, q ∈ qs) →
      ∀ e ∈ qs.foldl (fun b q => bucketAdd b q.1 q.2) b, ∀ w ∈ e.2, (e.1, w) ∈ qs by
    exact h [] (by simp) (fun q hq => hq)
  intro b hb _
  suffices h : ∀ (qs' : List (κ × α)) (b : List (κ × List α)),
      (∀ e ∈ b, ∀ w ∈ e.2, (e.1, w) ∈ qs) → (∀ q ∈ qs', q ∈ qs) →
      ∀ e ∈ qs'.foldl (fun b q => bucketAdd b q.1 q.2) b, ∀ w ∈ e.2, (e.1, w) ∈ qs by
    exact h qs b hb (fun q hq => hq)
  intro qs'
  induction qs' with
  | nil => intro b hb _ e he w hw; exact hb e he w hw
  | cons q rest ih =>
    intro b hb hqs e he w hw
    refine ih (bucketAdd b q.1 q.2) ?_ (fun q' hq' => hqs q' (List.mem_cons_of_mem _ hq')) e he w hw
    intro e' he' w' hw'
    rcases bucketAdd_mem_source he' w' hw' with ⟨vs, hvs, hwvs⟩ | ⟨hk, hv⟩
    · exact hb (e'.1, vs) hvs w' hwvs
    · rw [hk, hv]
      exact hqs q (List.mem_cons_self _ _)

theorem bucketFold_nonempty [DecidableEq κ] {qs : List (κ × α)} :
    ∀ e ∈ bucketFold qs, e.2 ≠ [] := by
  suffices h : ∀ (qs' : List (κ × α)) (b : List (κ × List α)),
      (∀ e ∈ b, e.2 ≠ []) →
      ∀ e ∈ qs'.foldl (fun b q => bucketAdd b q.1 q.2) b, e.2 ≠ [] by
    exact h qs [] (by simp)
  intro qs'
  induction qs' with
  | nil => exact fun b hb e he => hb e he
  | cons q rest ih =>
    intro b hb e he
    exact ih (bucketAdd b q.1 q.2) (bucketAdd_nonempty hb) e he

theorem bucketFold_complete [DecidableEq κ] {qs : List (κ × α)} {k : κ} {v : α}
    (h : (k, v) ∈ qs) : ∃ vs, (k, vs) ∈ bucketFold qs ∧ v ∈ vs := by
  suffices hgen : ∀ (qs' : List (κ × α)) (b : List (κ × List α)),
      ((k, v) ∈ qs' ∨ ∃ vs, (k, vs) ∈ b ∧ v ∈ vs) →
      ∃ vs, (k, vs) ∈ qs'.foldl (fun b q => bucketAdd b q.1 q.2) b ∧ v ∈ vs by
    exact hgen qs [] (Or.inl h)
  intro qs'
  induction qs' with
  | nil =>
    rintro b (h | h)
    · exact absurd h (List.not_mem_nil _)
    · exact h
  | cons q rest ih =>
    rintro b (h | ⟨vs, hvs, hv⟩)
    · rcases List.mem_cons.mp h with he | h'
      · rcases bucketAdd_self b q.1 q.2 with ⟨vs, hvs, hv⟩
        refine ih _ (Or.inr ?_)
        rw [show k = q.1 from congrArg Prod.fst he, show v = q.2 from congrArg Prod.snd he]
        exact ⟨vs, hvs, hv⟩
      · exact ih _ (Or.inl h')
    · obtain ⟨vs', hvs', hsub⟩ :
          ∃ vs', (k, vs') ∈ bucketAdd b q.1 q.2 ∧ vs ⊆ vs' :=
        bucketAdd_persist hvs
      exact ih _ (Or.inr ⟨vs', hvs', hsub hv⟩)

theorem bucketFold_keysNodup [DecidableEq κ] (qs : List (κ × α)) :
    ((bucketFold qs).map Prod.fst).Nodup := by
  suffices h : ∀ (qs' : List (κ × α)) (b : List (κ × List α)),
      (b.map Prod.fst).Nodup →
      ((qs'.foldl (fun b q => bucketAdd b q.1 q.2) b).map Prod.fst).Nodup by
    exact h qs [] (by simp)
  intro qs'
  induction qs' with
  | nil => exact fun b hb => hb
  | cons q rest ih =>
    intro b hb
    exact ih _ (bucketAdd_keysNodup hb)

theorem bucketFold_singleton [DecidableEq κ] {qs : List (κ × α)}
    (h : (qs.map Prod.fst).Nodup) :
    bucketFold qs = qs.map (fun q => (q.1, [q.2])) := by
  suffices hgen : ∀ (qs' : List (κ × α)) (b : List (κ × List α)),
      (qs'.map Prod.fst).Nodup → (∀ k ∈ qs'.map Prod.fst, k ∉ b.map Prod.fst) →
      qs'.foldl (fun b q => bucketAdd b q.1 q.2) b = b ++ qs'.map (fun q => (q.1, [q.2])) by
    simpa using hgen qs [] h (by simp)
  intro qs'
  induction qs' with
  | nil => simp
  | cons q rest ih =>
    intro b hnd hdisj
    simp only [List.map_cons, List.nodup_cons] at hnd
    rw [List.foldl_cons,
      bucketAdd_absent q.2 (hdisj q.1 (List.mem_cons_self _ _)),
      ih _ hnd.2 ?_, List.map_cons]
    · simp
    · intro k hk
      simp only [List.map_append, List.mem_append, List.map_cons, not_or]
      refine ⟨hdisj k (List.mem_cons_of_mem _ hk), ?_⟩
      simp only [List.map_nil, List.mem_singleton]
      intro he
      exact hnd.1 (he ▸ hk)

/-! ### Union-find lemmas -/

theorem ufSizeUnion (self : Batteries.UnionFind) (x y : Fin self.size) :
    (self.union x y).size = self.size := by
  unfold Batteries.UnionFind.union
  split
  next self₂ ry ey eq =>
    simp only [Batteries.UnionFind.size]
    simpa [Batteries.UnionFind.size] using ey

theorem ufInit_size (n : ℕ) : (ufInit n).size = n := by
  induction n with
  | zero => rfl
  | succ n ih =>
    rw [ufInit, Function.iterate_succ_apply']
    show ((ufInit n).push).size = n + 1
    simp only [Batteries.UnionFind.size, Batteries.UnionFind.push]
    rw [Array.size_push]
    exact congrArg (· + 1) ih

theorem ufInit_rootD (n x : ℕ) : (ufInit n).rootD x = x := by
  induction n with
  | zero => exact Batteries.UnionFind.rootD_empty
  | succ n ih =>
    rw [ufInit, Function.iterate_succ_apply']
    show ((ufInit n).push).rootD x = x
    rw [Batteries.UnionFind.root_push]
    exact ih

theorem ufUnion_size (u : Batteries.UnionFind) (a b : ℕ) :
    (ufUnion u a b).size = u.size := by
  unfold ufUnion
  split
  · exact ufSizeUnion _ _ _
  · rfl

theorem ufUnion_equiv_mono {u : Batteries.UnionFind} {a b x y : ℕ}
    (h : u.Equiv x y) : (ufUnion u a b).Equiv x y := by
  unfold ufUnion
  split
  · exact Batteries.UnionFind.equiv_union.mpr (Or.inl h)
  · exact h

theorem ufUnion_equiv_pair {u : Batteries.UnionFind} {a b : ℕ}
    (ha : a < u.size) (hb : b < u.size) : (ufUnion u a b).Equiv a b := by
  unfold ufUnion
  rw [dif_pos ⟨ha, hb⟩]
  exact Batteries.UnionFind.equiv_union.mpr
    (Or.inr (Or.inl ⟨Batteries.UnionFind.Equiv.rfl, Batteries.UnionFind.Equiv.rfl⟩))

theorem performUnions_size (u : Batteries.UnionFind) (ps : List (ℕ × ℕ)) :
    (performUnions u ps).size = u.size := by
  induction ps generalizing u with
  | nil => rfl
  | cons p rest ih =>
    rw [performUnions, List.foldl_cons]
    exact (ih (ufUnion u p.1 p.2)).trans (ufUnion_size u p.1 p.2)

theorem performUnions_equiv_mono {u : Batteries.UnionFind} {ps : List (ℕ × ℕ)}
    {x y : ℕ} (h : u.Equiv x y) : (performUnions u ps).Equiv x y := by
  induction ps generalizing u with
  | nil => exact h
  | cons p rest ih =>
    rw [performUnions, List.foldl_cons]
    exact ih (ufUnion_equiv_mono h)

theorem performUnions_equiv_pair {u : Batteries.UnionFind} {ps : List (ℕ × ℕ)}
    {a b : ℕ} (hmem : (a, b) ∈ ps)
    (hbound : ∀ p ∈ ps, p.1 < u.size ∧ p.2 < u.size) :
    (performUnions u ps).Equiv a b := by
  induction ps generalizing u with
  | nil => exact absurd hmem (List.not_mem_nil _)
  | cons p rest ih =>
    rw [performUnions, List.foldl_cons]
    rcases List.mem_cons.mp hmem with he | h'
    · have hb := hbound p (List.mem_cons_self _ _)
      have : (ufUnion u p.1 p.2).Equiv a b := by
        rw [show a = p.1 from congrArg Prod.fst he,
          show b = p.2 from congrArg Prod.snd he]
        exact ufUnion_equiv_pair hb.1 hb.2
      exact performUnions_equiv_mono this
    · refine ih h' (fun q hq => ?_)
      have := hbound q (List.mem_cons_of_mem _ hq)
      rw [← ufUnion_size u p.1 p.2] at this
      exact this

/-! ### Ring-consolidation lemmas -/

theorem foldl_inner_eq_flatMap (step : σ → γ → σ) (g : β → List γ)
    (l : List β) (b : σ) :
    l.foldl (fun b' x => (g x).foldl step b') b = (l.flatMap g).foldl step b := by
  induction l generalizing b with
  | nil => rfl
  | cons x xs ih =>
    rw [List.foldl_cons, List.flatMap_cons, List.foldl_append, ih]

theorem invertedIndex_eq (sets : List (List String)) :
    invertedIndex sets = bucketFold (invIdxPairs sets) := by
  rw [invertedIndex, invIdxPairs, bucketFold, ← foldl_inner_eq_flatMap]
  have hfn : (fun (b : List (String × List ℕ)) (p : ℕ × List String) =>
        p.2.foldl (fun b' a => bucketAdd b' a p.1) b) =
      (fun b p => (p.2.map (fun a => (a, p.1))).foldl
        (fun b' q => bucketAdd b' q.1 q.2) b) := by
    funext b p
    rw [List.foldl_map]
  rw [hfn]

theorem componentsOf_eq (root : ℕ → ℕ) (n : ℕ) :
    componentsOf root n =
      (bucketFold ((List.range n).map (fun i => (root i, i)))).map (·.2) := by
  rw [componentsOf, bucketFold, List.foldl_map]

theorem headD_mem {l : List α} (h : l ≠ []) (d : α) : l.headD d ∈ l := by
  cases l with
  | nil => exact absurd rfl h
  | cons x xs => exact List.mem_cons_self x xs

theorem invIdxPairs_vals {sets : List (List String)} {q : String × ℕ}
    (hq : q ∈ invIdxPairs sets) :
    q.2 < sets.length ∧ q.1 ∈ sets.getD q.2 [] := by
  rw [invIdxPairs, List.mem_flatMap] at hq
  rcases hq with ⟨p, hp, hq⟩
  rcases List.mem_map.mp hq with ⟨a, ha, rfl⟩
  rcases p with ⟨i, s⟩
  have he := List.mem_enum hp
  refine ⟨he.1, ?_⟩
  rw [List.getD_eq_getElem _ _ he.1, ← he.2]
  exact ha

theorem invIdxPairs_mem {sets : List (List String)} {i : ℕ} {a : String}
    (hi : i < sets.length) (ha : a ∈ sets.getD i []) :
    (a, i) ∈ invIdxPairs sets := by
  rw [invIdxPairs, List.mem_flatMap]
  refine ⟨(i, sets[i]), ?_, ?_⟩
  · have hlen : i < sets.enum.length := by rwa [List.enum_length]
    have := List.getElem_enum sets i hlen
    rw [← this]
    exact List.getElem_mem hlen
  · exact List.mem_map.mpr ⟨a, by rwa [List.getD_eq_getElem _ _ hi] at ha, rfl⟩

theorem mem_unionPairs_iff {acctIdx : List (String × List ℕ)} {p : ℕ × ℕ} :
    p ∈ unionPairs acctIdx ↔
      ∃ e ∈ acctIdx, p ∈ (e.2.drop 1).map (fun j => (e.2.headD 0, j)) := by
  rw [unionPairs, mem_foldl_append]
  simp

theorem unionPairs_bound {sets : List (List String)} :
    ∀ p ∈ unionPairs (invertedIndex sets),
      p.1 < sets.length ∧ p.2 < sets.length := by
  intro p hp
  rcases mem_unionPairs_iff.mp hp with ⟨e, he, hpe⟩
  rw [invertedIndex_eq] at he
  have hsrc := bucketFold_source e he
  have hne := bucketFold_nonempty e he
  rcases List.mem_map.mp hpe with ⟨j, hj, rfl⟩
  constructor
  · exact (invIdxPairs_vals (hsrc _ (headD_mem hne 0))).1
  · exact (invIdxPairs_vals (hsrc _ (List.drop_subset _ _ hj))).1

theorem bucket_equiv_head {sets : List (List String)} {e : String × List ℕ}
    (he : e ∈ invertedIndex sets) :
    ∀ x ∈ e.2, (mergeUF sets).Equiv (e.2.headD 0) x := by
  intro x hx
  rcases hE : e.2 with _ | ⟨h, t⟩
  · rw [hE] at hx
    exact absurd hx (List.not_mem_nil _)
  · rw [hE] at hx
    simp only [List.headD_cons]
    rcases List.mem_cons.mp hx with rfl | hx'
    · exact Batteries.UnionFind.Equiv.rfl
    · have hpair : (h, x) ∈ unionPairs (invertedIndex sets) := by
        rw [mem_unionPairs_iff]
        refine ⟨e, he, ?_⟩
        rw [hE]
        simpa using hx'
      rw [mergeUF]
      refine performUnions_equiv_pair hpair (fun q hq => ?_)
      have := unionPairs_bound q hq
      rwa [ufInit_size]

theorem shared_account_equiv {sets : List (List String)} {i j : ℕ} {a : String}
    (hi : i < sets.length) (hj : j < sets.length)
    (hai : a ∈ sets.getD i []) (haj : a ∈ sets.getD j []) :
    (mergeUF sets).Equiv i j := by
  rcases bucketFold_complete (invIdxPairs_mem hi hai) with ⟨is, his, hiis⟩
  rcases bucketFold_complete (invIdxPairs_mem hj haj) with ⟨js, hjs, hjjs⟩
  have hnd := bucketFold_keysNodup (invIdxPairs sets)
  have heq : is = js := keysNodup_assoc hnd his hjs
  subst heq
  have his' : (a, is) ∈ invertedIndex sets := by rw [invertedIndex_eq]; exact his
  have h1 := bucket_equiv_head his' i hiis
  have h2 := bucket_equiv_head his' j hjjs
  exact h1.symm.trans h2

theorem mem_mergeComponent_members {rings : List RingC} {sets : List (List String)}
    {idxs : List ℕ} {a : String} :
    a ∈ (mergeComponent rings sets idxs).members ↔ ∃ i ∈ idxs, a ∈ sets.getD i [] := by
  unfold mergeComponent
  simp only [mem_isort, mem_dedupF]
  rw [mem_foldl_append]
  simp [mem_isort]

theorem mergeComponent_members_sorted (rings : List RingC)
    (sets : List (List String)) (idxs : List ℕ) :
    List.Sorted (fun a b => strLe a b = true)
      (mergeComponent rings sets idxs).members := by
  unfold mergeComponent
  exact sorted_isort strLe_total strLe_trans _

theorem mergeComponent_members_nodup (rings : List RingC)
    (sets : List (List String)) (idxs : List ℕ) :
    (mergeComponent rings sets idxs).members.Nodup := by
  unfold mergeComponent
  exact nodup_isort (nodup_dedupF _)

theorem merge_members_sorted {cands : List RingC} {m : RingC}
    (hm : m ∈ mergeOverlappingRings cands) :
    List.Sorted (fun a b => strLe a b = true) m.members := by
  unfold mergeOverlappingRings at hm
  split_ifs at hm
  · exact absurd hm (List.not_mem_nil _)
  · rcases List.mem_map.mp hm with ⟨idxs, _, rfl⟩
    exact mergeComponent_members_sorted _ _ _

theorem merge_members_nodup {cands : List RingC} {m : RingC}
    (hm : m ∈ mergeOverlappingRings cands) : m.members.Nodup := by
  unfold mergeOverlappingRings at hm
  split_ifs at hm
  · exact absurd hm (List.not_mem_nil _)
  · rcases List.mem_map.mp hm with ⟨idxs, _, rfl⟩
    exact mergeComponent_members_nodup _ _ _

theorem merge_pairwise_disjoint (cands : List RingC) :
    List.Pairwise (fun m₁ m₂ => ∀ a ∈ m₁.members, a ∉ m₂.members)
      (mergeOverlappingRings cands) := by
  unfold mergeOverlappingRings
  split_ifs with hn
  · exact List.Pairwise.nil
  · rw [componentsOf_eq, List.map_map, List.pairwise_map]
    have hkeys := bucketFold_keysNodup ((List.range cands.length).map (fun i =>
      ((mergeUF (cands.map (fun r => dedupF r.members))).rootD i, i)))
    rw [List.Nodup, List.pairwise_map] at hkeys
    refine List.Pairwise.imp_of_mem ?_ hkeys
    intro e e' he he' hne
    show ∀ a ∈ (mergeComponent cands
        (cands.map (fun r => dedupF r.members)) e.2).members,
      a ∉ (mergeComponent cands (cands.map (fun r => dedupF r.members)) e'.2).members
    intro a ha ha'
    rcases mem_mergeComponent_members.mp ha with ⟨i, hi_mem, hai⟩
    rcases mem_mergeComponent_members.mp ha' with ⟨j, hj_mem, haj⟩
    rcases List.mem_map.mp (bucketFold_source e he i hi_mem) with ⟨v, hv, hvi⟩
    rcases List.mem_map.mp (bucketFold_source e' he' j hj_mem) with ⟨w, hw, hwj⟩
    have hvI : v = i := congrArg Prod.snd hvi
    have hwJ : w = j := congrArg Prod.snd hwj
    have he1 : e.1 = (mergeUF (cands.map (fun r => dedupF r.members))).rootD i := by
      rw [← hvI]; exact (congrArg Prod.fst hvi).symm
    have he2 : e'.1 = (mergeUF (cands.map (fun r => dedupF r.members))).rootD j := by
      rw [← hwJ]; exact (congrArg Prod.fst hwj).symm
    have hilen : i < (cands.map (fun r => dedupF r.members)).length := by
      rw [List.length_map, ← hvI]; exact List.mem_range.mp hv
    have hjlen : j < (cands.map (fun r => dedupF r.members)).length := by
      rw [List.length_map, ← hwJ]; exact List.mem_range.mp hw
    have hEq := shared_account_equiv hilen hjlen hai haj
    exact hne (by rw [he1, he2]; exact hEq)

theorem mem_ringResultsOf_elim {txns : List Txn} {rings : List RingC}
    {ap : List (String × List String)} {cent : List (String × Cent)} {r : RingOut}
    (hr : r ∈ ringResultsOf txns rings ap cent) :
    ∃ i, ∃ h : i < (isort ringLe rings).length,
      r.ringId = ringIdStr (i + 1) ∧
      r.memberAccounts = (isort ringLe rings)[i].members := by
  simp only [ringResultsOf, List.mapIdx_eq_enum_map] at hr
  rcases List.mem_map.mp hr with ⟨⟨i, x⟩, hmem, rfl⟩
  obtain ⟨hilen, hxeq⟩ := List.mem_enum hmem
  exact ⟨i, hilen, rfl, by rw [← hxeq]; exact rfl⟩

/-- C7: after consolidation, no two output rings (as identified by their
distinct ring ids) share any member account; the ring ids form the dense
ascending sequence `RING_001 … RING_00N` assigned after sorting the
consolidated rings by `(pattern_type, members)`; and every ring's member
list is sorted ascending. -/
theorem C7_ring_invariants (txns : List Txn) (cands : List RingC)
    (ap : List (String × List String)) (cent : List (String × Cent)) :
    (∀ r₁ ∈ (computeScores txns (mergeOverlappingRings cands) ap cent).fraudRings,
     ∀ r₂ ∈ (computeScores txns (mergeOverlappingRings cands) ap cent).fraudRings,
      r₁.ringId ≠ r₂.ringId → ∀ a ∈ r₁.memberAccounts, a ∉ r₂.memberAccounts)
    ∧ ((computeScores txns (mergeOverlappingRings cands) ap cent).fraudRings.map
        (·.ringId) =
      (List.range (computeScores txns (mergeOverlappingRings cands) ap
        cent).fraudRings.length).map (fun i => ringIdStr (i + 1)))
    ∧ ((computeScores txns (mergeOverlappingRings cands) ap cent).fraudRings.map
        (fun r => (r.memberAccounts, r.patternType)) =
      (isort ringLe (mergeOverlappingRings cands)).map
        (fun r => (r.members, r.patternType)))
    ∧ (∀ r ∈ (computeScores txns (mergeOverlappingRings cands) ap cent).fraudRings,
        List.Sorted (fun a b => strLe a b = true) r.memberAccounts) := by
  have hsymm : ∀ {m₁ m₂ : RingC},
      (∀ a ∈ m₁.members, a ∉ m₂.members) → ∀ a ∈ m₂.members, a ∉ m₁.members :=
    fun h a ha₂ ha₁ => h a ha₁ ha₂
  have hpw : List.Pairwise (fun m₁ m₂ => ∀ a ∈ m₁.members, a ∉ m₂.members)
      (isort ringLe (mergeOverlappingRings cands)) :=
    ((isort_perm ringLe (mergeOverlappingRings cands)).pairwise_iff hsymm).mpr
      (merge_pairwise_disjoint cands)
  rw [List.pairwise_iff_getElem] at hpw
  refine ⟨?_, ?_, ?_, ?_⟩
  · intro r₁ h₁ r₂ h₂ hne a ha₁ ha₂
    rcases mem_ringResultsOf_elim h₁ with ⟨i, hi, hid₁, hm₁⟩
    rcases mem_ringResultsOf_elim h₂ with ⟨j, hj, hid₂, hm₂⟩
    have hij : i ≠ j := fun he => hne (by rw [hid₁, hid₂, he])
    rw [hm₁] at ha₁
    rw [hm₂] at ha₂
    rcases Nat.lt_or_ge i j with hlt | hge
    · exact hpw i j hi hj hlt a ha₁ ha₂
    · exact hpw j i hj hi (lt_of_le_of_ne hge (Ne.symm hij)) a ha₂ ha₁
  · show (ringResultsOf txns (mergeOverlappingRings cands) ap cent).map _ =
      (List.range (ringResultsOf txns
        (mergeOverlappingRings cands) ap cent).length).map _
    simp only [ringResultsOf, List.mapIdx_eq_enum_map, List.map_map]
    refine List.ext_getElem (by simp) (fun k h₁ h₂ => ?_)
    simp only [List.getElem_map, List.getElem_range, Function.comp,
      Function.uncurry, List.getElem_enum]
  · show (ringResultsOf txns (mergeOverlappingRings cands) ap cent).map _ = _
    simp only [ringResultsOf, List.mapIdx_eq_enum_map, List.map_map]
    refine List.ext_getElem (by simp) (fun k h₁ h₂ => ?_)
    simp only [List.getElem_map, Function.comp, Function.uncurry,
      List.getElem_enum]
  · intro r hr
    rcases mem_ringResultsOf_elim hr with ⟨i, hi, _, hm⟩
    rw [hm]
    have : (isort ringLe (mergeOverlappingRings cands))[i] ∈
        mergeOverlappingRings cands :=
      mem_isort.mp (List.getElem_mem hi)
    exact merge_members_sorted this

theorem unionPairs_eq_nil {acctIdx : List (String × List ℕ)}
    (h : ∀ e ∈ acctIdx, e.2.drop 1 = []) : unionPairs acctIdx = [] := by
  rw [unionPairs]
  suffices hgen : ∀ (l : List (String × List ℕ)) (init : List (ℕ × ℕ)),
      (∀ e ∈ l, e.2.drop 1 = []) →
      l.foldl (fun ps p => ps ++ (p.2.drop 1).map (fun j => (p.2.headD 0, j)))
        init = init by
    exact hgen acctIdx [] h
  intro l
  induction l with
  | nil => intro init _; rfl
  | cons e rest ih =>
    intro init hl
    rw [List.foldl_cons, hl e (List.mem_cons_self _ _)]
    simp only [List.map_nil, List.append_nil]
    exact ih init (fun e' he' => hl e' (List.mem_cons_of_mem _ he'))

theorem invIdxPairs_keys (sets : List (List String)) :
    (invIdxPairs sets).map Prod.fst = sets.flatten := by
  rw [invIdxPairs, List.map_flatMap]
  have hfn : (fun p : ℕ × List String =>
      (p.2.map (fun a => (a, p.1))).map Prod.fst) = (fun p => p.2) := by
    funext p
    rw [List.map_map]
    exact List.map_id p.2
  rw [hfn, List.flatMap_def, List.enum_map_snd]

/-- C8: consolidating an already-consolidated ring list is a fixed point
(the output is returned exactly, element for element). -/
theorem C8_consolidation_idempotent (cands : List RingC) :
    mergeOverlappingRings (mergeOverlappingRings cands) =
      mergeOverlappingRings cands := by
  by_cases hlen : (mergeOverlappingRings cands).length = 0
  · rw [List.length_eq_zero.mp hlen]
    rfl
  · have hnodup : ∀ m ∈ mergeOverlappingRings cands, m.members.Nodup :=
      fun m hm => merge_members_nodup hm
    have hsorted : ∀ m ∈ mergeOverlappingRings cands,
        List.Sorted (fun a b => strLe a b = true) m.members :=
      fun m hm => merge_members_sorted hm
    have hdisj := merge_pairwise_disjoint cands
    have hsets : (mergeOverlappingRings cands).map (fun r => dedupF r.members) =
        (mergeOverlappingRings cands).map (fun r => r.members) :=
      List.map_congr_left (fun m hm => dedupF_eq_self (hnodup m hm))
    have hkeysflat : ((invIdxPairs ((mergeOverlappingRings cands).map
        (fun r => dedupF r.members))).map Prod.fst).Nodup := by
      rw [invIdxPairs_keys, hsets, List.nodup_flatten]
      constructor
      · intro l hl
        rcases List.mem_map.mp hl with ⟨m, hm, rfl⟩
        exact hnodup m hm
      · rw [List.pairwise_map]
        exact hdisj.imp (fun h => h)
    have hbuckets : ∀ e ∈ invertedIndex ((mergeOverlappingRings cands).map
        (fun r => dedupF r.members)), e.2.drop 1 = [] := by
      intro e he
      rw [invertedIndex_eq, bucketFold_singleton hkeysflat] at he
      rcases List.mem_map.mp he with ⟨q, _, rfl⟩
      rfl
    have hpairs : unionPairs (invertedIndex ((mergeOverlappingRings cands).map
        (fun r => dedupF r.members))) = [] := unionPairs_eq_nil hbuckets
    have hroot : ∀ i, (mergeUF ((mergeOverlappingRings cands).map
        (fun r => dedupF r.members))).rootD i = i := by
      intro i
      rw [mergeUF, hpairs]
      exact ufInit_rootD _ i
    rw [show mergeOverlappingRings (mergeOverlappingRings cands) =
        (componentsOf (fun i => (mergeUF ((mergeOverlappingRings cands).map
          (fun r => dedupF r.members))).rootD i)
          (mergeOverlappingRings cands).length).map
          (mergeComponent (mergeOverlappingRings cands)
            ((mergeOverlappingRings cands).map (fun r => dedupF r.members)))
      from by rw [mergeOverlappingRings]; rw [if_neg hlen]]
    have hrootfn : (fun i => (mergeUF ((mergeOverlappingRings cands).map
        (fun r => dedupF r.members))).rootD i) = fun i => i := funext hroot
    rw [hrootfn, componentsOf_eq]
    have hkeysrange : (((List.range (mergeOverlappingRings cands).length).map
        (fun i => ((fun i => i) i, i))).map Prod.fst).Nodup := by
      rw [List.map_map, show (Prod.fst ∘ fun i : ℕ => (i, i)) = id from rfl,
        List.map_id]
      exact List.nodup_range _
    rw [bucketFold_singleton hkeysrange]
    simp only [List.map_map]
    refine List.ext_getElem (by simp) (fun k h₁ h₂ => ?_)
    have hk : k < (mergeOverlappingRings cands).length := by simpa using h₁
    simp only [List.getElem_map, List.getElem_range, Function.comp]
    show mergeComponent (mergeOverlappingRings cands)
      ((mergeOverlappingRings cands).map (fun r => dedupF r.members)) [k] =
      (mergeOverlappingRings cands)[k]
    have hmem : (mergeOverlappingRings cands)[k] ∈ mergeOverlappingRings cands :=
      List.getElem_mem hk
    have hsetk : ((mergeOverlappingRings cands).map
        (fun r => dedupF r.members)).getD k [] =
        (mergeOverlappingRings cands)[k].members := by
      rw [List.getD_eq_getElem _ _ (by simpa using hk), List.getElem_map]
      exact dedupF_eq_self (hnodup _ hmem)
    unfold mergeComponent
    simp only [hsetk]
    have hs1 : isort (fun i j =>
        decide ((((mergeOverlappingRings cands).map
          (fun r => dedupF r.members)).getD j []).length ≤
          (((mergeOverlappingRings cands).map
            (fun r => dedupF r.members)).getD i []).length)) [k] = [k] := rfl
    rw [hs1]
    simp only [List.foldl_cons, List.foldl_nil, List.nil_append]
    rw [hsetk]
    have hmembers : isort strLe
        (dedupF (mergeOverlappingRings cands)[k].members) =
        (mergeOverlappingRings cands)[k].members := by
      rw [dedupF_eq_self (hnodup _ hmem)]
      exact isort_eq_self (hsorted _ hmem)
    rw [hmembers]
    have hpat : ((mergeOverlappingRings cands).getD k default).patternType =
        (mergeOverlappingRings cands)[k].patternType := by
      rw [List.getD_eq_getElem _ _ hk]
    simp only [hpat, List.not_mem_nil, if_false, List.nil_append]
    show ({ members := (mergeOverlappingRings cands)[k].members,
            patternType := joinPatterns
              [(mergeOverlappingRings cands)[k].patternType] } : RingC) = _
    have hjoin : joinPatterns [(mergeOverlappingRings cands)[k].patternType] =
        (mergeOverlappingRings cands)[k].patternType := by
      simp [joinPatterns]
    rw [hjoin]

theorem foldl_distinct_nodup (f : ℕ → String) (l : List ℕ) (acc : List String)
    (hacc : acc.Nodup) :
    (l.foldl (fun ps i => if f i ∈ ps then ps else ps ++ [f i]) acc).Nodup := by
  induction l generalizing acc with
  | nil => exact hacc
  | cons i rest ih =>
    rw [List.foldl_cons]
    split_ifs with hmem
    · exact ih acc hacc
    · refine ih _ ?_
      rw [List.nodup_append]
      exact ⟨hacc, List.nodup_singleton _,
        fun a ha hk => hmem (List.mem_singleton.mp hk ▸ ha)⟩

theorem foldl_distinct_mem (f : ℕ → String) (l : List ℕ) (acc : List String) :
    ∀ t ∈ l.foldl (fun ps i => if f i ∈ ps then ps else ps ++ [f i]) acc,
      t ∈ acc ∨ ∃ i ∈ l, f i = t := by
  induction l generalizing acc with
  | nil => exact fun t ht => Or.inl ht
  | cons i rest ih =>
    intro t ht
    rw [List.foldl_cons] at ht
    split_ifs at ht with hmem
    · rcases ih acc t ht with h | ⟨j, hj, he⟩
      · exact Or.inl h
      · exact Or.inr ⟨j, List.mem_cons_of_mem _ hj, he⟩
    · rcases ih _ t ht with h | ⟨j, hj, he⟩
      · rcases List.mem_append.mp h with h' | h'
        · exact Or.inl h'
        · exact Or.inr ⟨i, List.mem_cons_self _ _, (List.mem_singleton.mp h').symm⟩
      · exact Or.inr ⟨j, List.mem_cons_of_mem _ hj, he⟩

theorem foldl_distinct_ne_nil (f : ℕ → String) (l : List ℕ) (acc : List String)
    (h : l ≠ []) :
    l.foldl (fun ps i => if f i ∈ ps then ps else ps ++ [f i]) acc ≠ [] := by
  induction l generalizing acc with
  | nil => exact absurd rfl h
  | cons i rest ih =>
    rw [List.foldl_cons]
    rcases Decidable.em (rest = []) with hrest | hrest
    · subst hrest
      rw [List.foldl_nil]
      split_ifs with hmem
      · intro he
        rw [he] at hmem
        exact absurd hmem (List.not_mem_nil _)
      · simp
    · exact ih _ hrest

theorem comps_facts {root : ℕ → ℕ} {n : ℕ} :
    ∀ idxs ∈ componentsOf root n, idxs ≠ [] ∧ ∀ i ∈ idxs, i < n := by
  rw [componentsOf_eq]
  intro idxs h
  rcases List.mem_map.mp h with ⟨e, he, rfl⟩
  refine ⟨bucketFold_nonempty e he, fun i hi => ?_⟩
  rcases List.mem_map.mp (bucketFold_source e he i hi) with ⟨v, hv, hvi⟩
  have : v = i := congrArg Prod.snd hvi
  exact this ▸ List.mem_range.mp hv

theorem mergeComponent_patternType (rings : List RingC)
    (sets : List (List String)) (idxs : List ℕ) :
    ∃ pats : List String,
      (mergeComponent rings sets idxs).patternType = joinPatterns pats ∧
      pats.Nodup ∧ (idxs ≠ [] → pats ≠ []) ∧
      ∀ t ∈ pats, ∃ i ∈ idxs, (rings.getD i default).patternType = t := by
  refine ⟨_, rfl, ?_, ?_, ?_⟩
  · exact foldl_distinct_nodup _ _ [] List.nodup_nil
  · intro hne
    refine foldl_distinct_ne_nil _ _ [] ?_
    intro he
    have he' := congrArg List.length he
    rw [(isort_perm _ idxs).length_eq] at he'
    exact hne (List.length_eq_zero.mp he')
  · intro t ht
    rcases foldl_distinct_mem _ _ [] t ht with h | ⟨i, hi, he⟩
    · exact absurd h (List.not_mem_nil _)
    · exact ⟨i, mem_isort.mp hi, he⟩

theorem dedupFAux_congr [DecidableEq α] {s₁ s₂ : List α}
    (h : ∀ a, a ∈ s₁ ↔ a ∈ s₂) : ∀ l, dedupFAux s₁ l = dedupFAux s₂ l
  | [] => rfl
  | a :: as => by
    rw [dedupFAux, dedupFAux]
    by_cases ha : a ∈ s₁
    · rw [if_pos ha, if_pos ((h a).mp ha)]
      exact dedupFAux_congr h as
    · rw [if_neg ha, if_neg (fun hc => ha ((h a).mpr hc))]
      exact congrArg (List.cons a) (dedupFAux_congr (fun x => by
        simp only [List.mem_cons]
        rw [h x]) as)

theorem foldl_distinct_eq_dedupF (f : ℕ → String) :
    ∀ (l : List ℕ) (acc : List String),
      l.foldl (fun ps i => if f i ∈ ps then ps else ps ++ [f i]) acc =
        acc ++ dedupFAux acc (l.map f)
  | [], acc => by simp [dedupFAux]
  | i :: rest, acc => by
    rw [List.foldl_cons, List.map_cons, dedupFAux]
    by_cases hm : f i ∈ acc
    · rw [if_pos hm, if_pos hm]
      exact foldl_distinct_eq_dedupF f rest acc
    · rw [if_neg hm, if_neg hm]
      rw [foldl_distinct_eq_dedupF f rest (acc ++ [f i])]
      rw [show dedupFAux (acc ++ [f i]) (rest.map f) =
          dedupFAux (f i :: acc) (rest.map f) from
        dedupFAux_congr (fun x => by
          simp only [List.mem_append, List.mem_cons, List.mem_singleton,
            List.not_mem_nil, or_false]
          tauto) (rest.map f)]
      rw [List.append_assoc]
      rfl

theorem mergeComponent_patternType_exact (rings : List RingC)
    (sets : List (List String)) (idxs : List ℕ) :
    (mergeComponent rings sets idxs).patternType =
      joinPatterns (dedupF ((isort (fun i j =>
          decide ((sets.getD j []).length ≤ (sets.getD i []).length)) idxs).map
        (fun i => (rings.getD i default).patternType))) := by
  unfold mergeComponent
  show joinPatterns ((isort (fun i j =>
      decide ((sets.getD j []).length ≤ (sets.getD i []).length)) idxs).foldl
    (fun ps i => if (rings.getD i default).patternType ∈ ps then ps
      else ps ++ [(rings.getD i default).patternType]) []) = _
  rw [show ((isort (fun i j =>
      decide ((sets.getD j []).length ≤ (sets.getD i []).length)) idxs).foldl
    (fun ps i => if (rings.getD i default).patternType ∈ ps then ps
      else ps ++ [(rings.getD i default).patternType]) []) =
      [] ++ dedupFAux [] ((isort (fun i j =>
        decide ((sets.getD j []).length ≤ (sets.getD i []).length)) idxs).map
        (fun i => (rings.getD i default).patternType)) from
    foldl_distinct_eq_dedupF _ _ []]
  rw [List.nil_append]
  rfl

theorem bucketAdd_vals_sublist [DecidableEq κ] {b : List (κ × List α)} {k : κ} {v : α}
    {acc : List α} (hb : ∀ e ∈ b, e.2.Sublist acc) :
    ∀ e ∈ bucketAdd b k v, e.2.Sublist (acc ++ [v]) := by
  induction b with
  | nil =>
    intro e he
    simp only [bucketAdd, List.mem_singleton] at he
    subst he
    exact List.sublist_append_right acc [v]
  | cons p rest ih =>
    intro e he
    rw [bucketAdd] at he
    by_cases hk : p.1 = k
    · rw [if_pos hk] at he
      rcases List.mem_cons.mp he with rfl | he'
      · exact (hb p (List.mem_cons_self _ _)).append (List.Sublist.refl [v])
      · exact (hb e (List.mem_cons_of_mem _ he')).trans
          (List.sublist_append_left acc [v])
    · rw [if_neg hk] at he
      rcases List.mem_cons.mp he with rfl | he'
      · exact (hb e (List.mem_cons_self _ _)).trans (List.sublist_append_left acc [v])
      · exact ih (fun e' he'' => hb e' (List.mem_cons_of_mem _ he'')) e he'

theorem bucketFold_vals_sublist [DecidableEq κ] {qs : List (κ × α)} :
    ∀ e ∈ bucketFold qs, e.2.Sublist (qs.map (·.2)) := by
  suffices hgen : ∀ (qs' : List (κ × α)) (b : List (κ × List α)) (acc : List α),
      (∀ e ∈ b, e.2.Sublist acc) →
      ∀ e ∈ qs'.foldl (fun b q => bucketAdd b q.1 q.2) b,
        e.2.Sublist (acc ++ qs'.map (·.2)) by
    intro e he
    simpa using hgen qs [] [] (fun e' he' => absurd he' (List.not_mem_nil e')) e he
  intro qs'
  induction qs' with
  | nil =>
    intro b acc hb e he
    simpa using hb e he
  | cons q rest ih =>
    intro b acc hb e he
    rw [List.foldl_cons] at he
    have hres := ih (bucketAdd b q.1 q.2) (acc ++ [q.2])
      (bucketAdd_vals_sublist hb) e he
    simpa [List.append_assoc] using hres

theorem componentsOf_pairwise_lt (root : ℕ → ℕ) (n : ℕ) :
    ∀ idxs ∈ componentsOf root n, idxs.Pairwise (· < ·) := by
  rw [componentsOf_eq]
  intro idxs h
  rcases List.mem_map.mp h with ⟨e, he, rfl⟩
  have hsub : e.2.Sublist (((List.range n).map (fun i => (root i, i))).map (·.2)) :=
    bucketFold_vals_sublist e he
  have hmm : ((List.range n).map (fun i => (root i, i))).map (·.2) = List.range n := by
    rw [List.map_map]
    show List.map (fun i => i) (List.range n) = List.range n
    exact List.map_id _
  rw [hmm] at hsub
  exact (List.pairwise_lt_range n).sublist hsub

theorem dedupF_ne_nil [DecidableEq α] {l : List α} (h : l ≠ []) : dedupF l ≠ [] := by
  cases l with
  | nil => exact absurd rfl h
  | cons a as =>
    rw [dedupF, dedupFAux, if_neg (List.not_mem_nil a)]
    simp

theorem orderedInsert_pairwise_stable {f : ℕ → ℕ} {x : ℕ} :
    ∀ {s : List ℕ},
      s.Pairwise (fun i j => f j ≤ f i) →
      s.Pairwise (fun i j => f j ≤ f i ∧ (f i = f j → i < j)) →
      (∀ y ∈ s, x < y) →
      (List.orderedInsert (fun i j => decide (f j ≤ f i) = true) x s).Pairwise
        (fun i j => f j ≤ f i ∧ (f i = f j → i < j)) := by
  intro s
  induction s with
  | nil =>
    intro _ _ _
    exact List.pairwise_singleton _ _
  | cons b rest ih =>
    intro hsort hQ hx
    rw [List.orderedInsert]
    by_cases hr : decide (f b ≤ f x) = true
    · rw [if_pos hr]
      refine List.pairwise_cons.mpr ⟨?_, hQ⟩
      intro y hy
      rcases List.mem_cons.mp hy with rfl | hy'
      · exact ⟨of_decide_eq_true hr, fun _ => hx y (List.mem_cons_self _ _)⟩
      · have h1 : f y ≤ f b := (List.pairwise_cons.mp hsort).1 y hy'
        exact ⟨h1.trans (of_decide_eq_true hr),
          fun _ => hx y (List.mem_cons_of_mem _ hy')⟩
    · rw [if_neg hr]
      have hlt : f x < f b := by
        have hnle : ¬ f b ≤ f x := fun hc => hr (decide_eq_true hc)
        omega
      have hs' := List.pairwise_cons.mp hsort
      have hQ' := List.pairwise_cons.mp hQ
      refine List.pairwise_cons.mpr ⟨?_, ih hs'.2 hQ'.2
        (fun y hy => hx y (List.mem_cons_of_mem _ hy))⟩
      intro y hy
      rcases (List.mem_orderedInsert _).mp hy with rfl | hy'
      · exact ⟨Nat.le_of_lt hlt, fun he => absurd he (by omega)⟩
      · exact hQ'.1 y hy'

theorem isort_sizeDesc_stable (f : ℕ → ℕ) :
    ∀ {idxs : List ℕ}, idxs.Pairwise (· < ·) →
      (isort (fun i j => decide (f j ≤ f i)) idxs).Pairwise
        (fun i j => f j ≤ f i ∧ (f i = f j → i < j)) := by
  have htot : ∀ i j : ℕ, decide (f j ≤ f i) = true ∨ decide (f i ≤ f j) = true := by
    intro i j
    rcases Nat.le_total (f j) (f i) with h | h
    · exact Or.inl (decide_eq_true h)
    · exact Or.inr (decide_eq_true h)
  have htrans : ∀ i j k : ℕ, decide (f j ≤ f i) = true → decide (f k ≤ f j) = true →
      decide (f k ≤ f i) = true := fun i j k h1 h2 =>
    decide_eq_true ((of_decide_eq_true h2).trans (of_decide_eq_true h1))
  intro idxs
  induction idxs with
  | nil =>
    intro _
    exact List.Pairwise.nil
  | cons a rest ih =>
    intro hpw
    have hpw' := List.pairwise_cons.mp hpw
    have hsorted : (isort (fun i j => decide (f j ≤ f i)) rest).Pairwise
        (fun i j => f j ≤ f i) :=
      List.Pairwise.imp (fun h => of_decide_eq_true h) (sorted_isort htot htrans rest)
    show (List.orderedInsert _ a (isort (fun i j => decide (f j ≤ f i)) rest)).Pairwise _
    exact orderedInsert_pairwise_stable hsorted (ih hpw'.2)
      (fun y hy => hpw'.1 y (mem_isort.mp hy))

theorem merge_cycleFanIn_patternTypes :
    (mergeOverlappingRings cycleFanInCandidates).map (·.patternType) =
      ["fan_in+cycle"] := by
  rw [mergeOverlappingRings, if_neg (by decide)]
  have hpairs : unionPairs (invertedIndex (cycleFanInCandidates.map
      (fun r => dedupF r.members))) = [(0, 1)] := by decide
  have hEquiv : (mergeUF (cycleFanInCandidates.map
      (fun r => dedupF r.members))).Equiv 0 1 := by
    rw [mergeUF, hpairs]
    refine performUnions_equiv_pair (List.mem_singleton.mpr rfl) ?_
    intro q hq
    rw [ufInit_size]
    rcases List.mem_singleton.mp hq with rfl
    exact ⟨by decide, by decide⟩
  have hEq : (mergeUF (cycleFanInCandidates.map
      (fun r => dedupF r.members))).rootD 1 =
      (mergeUF (cycleFanInCandidates.map (fun r => dedupF r.members))).rootD 0 :=
    hEquiv.symm
  rw [componentsOf_eq]
  have hrq : (List.range cycleFanInCandidates.length).map
      (fun i => ((mergeUF (cycleFanInCandidates.map
        (fun r => dedupF r.members))).rootD i, i)) =
      [((mergeUF (cycleFanInCandidates.map
        (fun r => dedupF r.members))).rootD 0, 0),
       ((mergeUF (cycleFanInCandidates.map
         (fun r => dedupF r.members))).rootD 0, 1)] := by
    show [((mergeUF (cycleFanInCandidates.map
        (fun r => dedupF r.members))).rootD 0, 0),
      ((mergeUF (cycleFanInCandidates.map
        (fun r => dedupF r.members))).rootD 1, 1)] = _
    rw [hEq]
  rw [hrq]
  rw [show bucketFold [((mergeUF (cycleFanInCandidates.map
      (fun r => dedupF r.members))).rootD 0, 0),
      ((mergeUF (cycleFanInCandidates.map
        (fun r => dedupF r.members))).rootD 0, 1)] =
      [((mergeUF (cycleFanInCandidates.map
        (fun r => dedupF r.members))).rootD 0, [0, 1])] from by
    simp [bucketFold, bucketAdd]]
  show [(mergeComponent cycleFanInCandidates (cycleFanInCandidates.map
    (fun r => dedupF r.members)) [0, 1]).patternType] = ["fan_in+cycle"]
  decide

/-- C4 counterexample: with the candidate list emitted when a 3-cycle
`{A,B,C}` and a fan-in on `{C, X01…X10}` both trigger (cycle candidates
precede smurfing candidates in `detect_all`'s emission order), the single
consolidated ring's `pattern_type` is `"fan_in+cycle"` — the larger
candidate's type leads because the component is sorted by member-set size
before pattern types are collected — not `"cycle+fan_in"` as claimed. -/
theorem C4_counterexample :
    (mergeOverlappingRings cycleFanInCandidates).map (·.patternType) =
      ["fan_in+cycle"] ∧ "fan_in+cycle" ≠ "cycle+fan_in" :=
  ⟨merge_cycleFanIn_patternTypes, by decide⟩

/-- C4 (amended): every consolidated ring arises from a nonempty set
`idxs` of candidate indices (its constituents, listed in first-seen
emission order) whose member sets union to exactly the ring's members,
and its `pattern_type` is `joinPatterns pats` — the `+`-join when more
than one type occurs, the single type otherwise — where `pats` is
exactly the first-occurrence deduplication of ALL of the constituents'
pattern types taken in the order `sortedIdxs`, the unique reordering of
`idxs` by decreasing deduplicated-member-set size with ties in
first-seen (index) order; so every constituent's type appears in `pats`,
every entry of `pats` is some constituent's type, and `pats` is nonempty
and duplicate-free.  In particular the 3-cycle/fan-in example yields the
single pattern type `"fan_in+cycle"`, not `"cycle+fan_in"`. -/
theorem C4_merged_pattern_types (cands : List RingC) :
    (∀ m ∈ mergeOverlappingRings cands,
      ∃ idxs sortedIdxs : List ℕ, ∃ pats : List String,
        idxs ≠ [] ∧ (∀ i ∈ idxs, i < cands.length) ∧
        idxs.Pairwise (· < ·) ∧
        (∀ a, a ∈ m.members ↔ ∃ i ∈ idxs, a ∈ (cands.getD i default).members) ∧
        List.Perm sortedIdxs idxs ∧
        sortedIdxs.Pairwise (fun i j =>
          (dedupF (cands.getD j default).members).length ≤
            (dedupF (cands.getD i default).members).length ∧
          ((dedupF (cands.getD i default).members).length =
              (dedupF (cands.getD j default).members).length → i < j)) ∧
        pats = dedupF (sortedIdxs.map (fun i => (cands.getD i default).patternType)) ∧
        pats.Nodup ∧ pats ≠ [] ∧
        (∀ i ∈ idxs, (cands.getD i default).patternType ∈ pats) ∧
        (∀ t ∈ pats, ∃ i ∈ idxs, (cands.getD i default).patternType = t) ∧
        m.patternType = joinPatterns pats)
    ∧ (mergeOverlappingRings cycleFanInCandidates).map (·.patternType) =
        ["fan_in+cycle"] := by
  refine ⟨?_, merge_cycleFanIn_patternTypes⟩
  intro m hm
  unfold mergeOverlappingRings at hm
  split_ifs at hm with hn
  · exact absurd hm (List.not_mem_nil _)
  · rcases List.mem_map.mp hm with ⟨idxs, hidxs, rfl⟩
    rcases comps_facts idxs hidxs with ⟨hne, hbound⟩
    have hpwlt : idxs.Pairwise (· < ·) := componentsOf_pairwise_lt _ _ idxs hidxs
    have hgetD : ∀ i, i < cands.length →
        (cands.map (fun r => dedupF r.members)).getD i [] =
          dedupF (cands.getD i default).members := by
      intro i hi
      rw [List.getD_eq_getElem _ _ (by rw [List.length_map]; exact hi),
        List.getD_eq_getElem _ _ hi, List.getElem_map]
    refine ⟨idxs,
      isort (fun i j =>
        decide (((cands.map (fun r => dedupF r.members)).getD j []).length ≤
          ((cands.map (fun r => dedupF r.members)).getD i []).length)) idxs,
      dedupF ((isort (fun i j =>
        decide (((cands.map (fun r => dedupF r.members)).getD j []).length ≤
          ((cands.map (fun r => dedupF r.members)).getD i []).length)) idxs).map
        (fun i => (cands.getD i default).patternType)),
      hne, hbound, hpwlt, ?_, isort_perm _ _, ?_, rfl, nodup_dedupF _, ?_, ?_, ?_, ?_⟩
    · intro a
      rw [mem_mergeComponent_members]
      constructor
      · rintro ⟨i, hi, ha⟩
        rw [hgetD i (hbound i hi)] at ha
        exact ⟨i, hi, mem_dedupF.mp ha⟩
      · rintro ⟨i, hi, ha⟩
        refine ⟨i, hi, ?_⟩
        rw [hgetD i (hbound i hi)]
        exact mem_dedupF.mpr ha
    · have hst := isort_sizeDesc_stable
        (fun i => ((cands.map (fun r => dedupF r.members)).getD i []).length) hpwlt
      refine List.Pairwise.imp_of_mem ?_ hst
      intro i j hi hj hr
      have hib := hbound i (mem_isort.mp hi)
      have hjb := hbound j (mem_isort.mp hj)
      simp only [hgetD i hib, hgetD j hjb] at hr
      exact hr
    · apply dedupF_ne_nil
      intro hmap
      have hlen := congrArg List.length hmap
      rw [List.length_map, (isort_perm _ _).length_eq] at hlen
      exact hne (List.length_eq_zero.mp hlen)
    · intro i hi
      rw [mem_dedupF]
      exact List.mem_map.mpr ⟨i, mem_isort.mpr hi, rfl⟩
    · intro t ht
      rcases List.mem_map.mp (mem_dedupF.mp ht) with ⟨i, hi, he⟩
      exact ⟨i, mem_isort.mp hi, he⟩
    · exact mergeComponent_patternType_exact cands _ idxs

/-! ### Merchant-predicate lemmas -/

theorem lookupA_map_keyed {l : List α} [DecidableEq α] {g : α → α × β}
    (hg : ∀ a, (g a).1 = a) {k : α} {v : β}
    (h : lookupA (l.map g) k = some v) : v = (g k).2 ∧ k ∈ l := by
  induction l with
  | nil => simp [lookupA] at h
  | cons a as ih =>
    rw [List.map_cons, lookupA, List.find?_cons] at h
    by_cases hak : (g a).1 = k
    · rw [decide_eq_true hak] at h
      have h' : (g a).2 = v := by simpa using h
      rw [hg a] at hak
      subst hak
      exact ⟨h'.symm, List.mem_cons_self _ _⟩
    · rw [decide_eq_false hak] at h
      have h' : lookupA (List.map g as) k = some v := h
      rcases ih h' with ⟨hv, hmem⟩
      exact ⟨hv, List.mem_cons_of_mem _ hmem⟩

theorem lookupA_map_keyed_mem {l : List α} [DecidableEq α] {g : α → α × β}
    (hg : ∀ a, (g a).1 = a) {k : α} (hk : k ∈ l) :
    lookupA (l.map g) k = some (g k).2 := by
  induction l with
  | nil => exact absurd hk (List.not_mem_nil _)
  | cons a as ih =>
    rw [List.map_cons, lookupA, List.find?_cons]
    by_cases hak : a = k
    · subst hak
      rw [decide_eq_true (hg a)]
      rfl
    · rw [decide_eq_false (fun he => hak ((hg a) ▸ he))]
      rcases List.mem_cons.mp hk with rfl | hk'
      · exact absurd rfl hak
      · exact ih hk'

theorem buildProfiles_keys_eq_accounts (txns : List Txn) :
    (buildProfiles txns).map Prod.fst =
      dedupF (txns.map (·.sender) ++ txns.map (·.receiver)) := by
  rw [buildProfiles, List.map_map]
  exact List.map_congr_left (fun a _ => rfl) |>.trans (List.map_id _)

theorem single_account_self_loops {txns : List Txn}
    (hone : (dedupF (txns.map (·.sender) ++ txns.map (·.receiver))).length = 1) :
    ∀ t ∈ txns, t.sender = t.receiver := by
  intro t ht
  rcases hacc : dedupF (txns.map (·.sender) ++ txns.map (·.receiver)) with _ | ⟨a, rest⟩
  · rw [hacc] at hone; simp at hone
  · have hrest : rest = [] := by
      rw [hacc, List.length_cons] at hone
      exact List.length_eq_zero.mp (by omega)
    have hs : t.sender ∈ dedupF (txns.map (·.sender) ++ txns.map (·.receiver)) :=
      mem_dedupF.mpr (List.mem_append.mpr (Or.inl (List.mem_map.mpr ⟨t, ht, rfl⟩)))
    have hr : t.receiver ∈ dedupF (txns.map (·.sender) ++ txns.map (·.receiver)) :=
      mem_dedupF.mpr (List.mem_append.mpr (Or.inr (List.mem_map.mpr ⟨t, ht, rfl⟩)))
    rw [hacc, hrest] at hs hr
    rw [List.mem_singleton.mp hs, List.mem_singleton.mp hr]

/-- C5: an account is classified merchant-like by the scorer exactly when
the claim's predicate holds: no pattern tag containing the substring
`cycle`, counterparty count at least `max(3, 80th-percentile)`, time span
at least `max(2 h, median)`, and `received_count > 2 × sent_count` — with
the fixed thresholds (15 counterparties, 168 hours) when the dataset has
fewer than 2 accounts.  (With exactly 1 account every transaction is a
self-loop, so `received_count = sent_count` and both predicates are
false; with 0 accounts no account has a profile.) -/
theorem C5_merchant_predicate (txns : List Txn) (patterns : List String)
    (acc : String) :
    isMerchantLike (lookupA (buildProfiles txns) acc) patterns
      (buildProfiles txns) = true ↔ merchantLikeSpec txns patterns acc := by
  rcases hl : lookupA (buildProfiles txns) acc with _ | p
  · rw [merchantLikeSpec]
    simp only [hl, isMerchantLike]
    simp
  · rw [merchantLikeSpec]
    simp only [hl, isMerchantLike]
    have hmem : acc ∈ dedupF (txns.map (·.sender) ++ txns.map (·.receiver)) := by
      have := lookupA_map_keyed (g := fun acc => (acc, _)) (fun _ => rfl) hl
      exact this.2
    have hlen1 : 1 ≤ (buildProfiles txns).length := by
      rw [buildProfiles, List.length_map]
      exact List.length_pos.mpr (List.ne_nil_of_mem hmem)
    by_cases hcyc : (patterns.any (fun t => decide ("cycle".toList <:+: t.toList))) = true
    · rw [if_pos hcyc]
      have hex : ∃ t ∈ patterns, "cycle".toList <:+: t.toList := by
        rcases List.any_eq_true.mp hcyc with ⟨t, ht, hdt⟩
        exact ⟨t, ht, of_decide_eq_true hdt⟩
      constructor
      · intro h; exact absurd h (by simp)
      · rintro ⟨hno, _⟩; exact absurd hex hno
    · rw [if_neg hcyc]
      simp only [decide_eq_true_eq]
      have hnoex : ¬ ∃ t ∈ patterns, "cycle".toList <:+: t.toList := by
        intro ⟨t, ht, hinf⟩
        exact hcyc (List.any_eq_true.mpr ⟨t, ht, decide_eq_true hinf⟩)
      rw [if_pos (by omega : 0 < (buildProfiles txns).length)]
      rcases Nat.lt_or_ge (buildProfiles txns).length 2 with hlt | hge
      · -- exactly one account: received_count = sent_count
        have hone : (dedupF (txns.map (·.sender) ++ txns.map (·.receiver))).length = 1 := by
          have : (buildProfiles txns).length =
              (dedupF (txns.map (·.sender) ++ txns.map (·.receiver))).length := by
            rw [buildProfiles, List.length_map]
          omega
        have hself := single_account_self_loops hone
        have hl2 := hl
        rw [buildProfiles] at hl2
        have hpv := lookupA_map_keyed (fun _ => rfl) hl2
        have hsent : p.sentCount =
            (txns.filter (fun t => decide (t.sender = acc))).length := by
          rw [hpv.1]
        have hrecv : p.receivedCount =
            (txns.filter (fun t => decide (t.receiver = acc))).length := by
          rw [hpv.1]
        have hfeq : txns.filter (fun t => decide (t.sender = acc)) =
            txns.filter (fun t => decide (t.receiver = acc)) :=
          List.filter_congr (fun t ht => by rw [hself t ht])
        have hfalse : ¬ (2 * p.sentCount < p.receivedCount) := by
          rw [hsent, hrecv, hfeq]
          omega
        rw [if_pos hlt]
        constructor
        · rintro ⟨_, _, h3⟩
          exact absurd h3 hfalse
        · rintro ⟨_, _, h3⟩
          exact absurd h3 hfalse
      · rw [if_neg (by omega : ¬ (buildProfiles txns).length < 2)]
        rw [percentile80, medianSpec]
        rw [(isort_perm (fun a b => decide (a ≤ b))
          ((buildProfiles txns).map (·.2.counterpartyCount))).length_eq]
        rw [(isort_perm (fun a b => decide (a ≤ b))
          ((buildProfiles txns).map (·.2.timeSpanHours))).length_eq]
        constructor
        · rintro ⟨h1, h2, h3⟩
          exact ⟨hnoex, ⟨h1, h2⟩, h3⟩
        · rintro ⟨_, ⟨h1, h2⟩, h3⟩
          exact ⟨h1, h2, h3⟩

/-! ### Tagged-accounts-only: `compute_scores` keys and `detect_all` tags -/

theorem lookupA_mem [DecidableEq α] {l : List (α × β)} {k : α} {v : β}
    (h : lookupA l k = some v) : (k, v) ∈ l := by
  unfold lookupA at h
  rcases Option.map_eq_some'.mp h with ⟨p, hfind, hv⟩
  have hmem := List.mem_of_find?_eq_some hfind
  have hkd : decide (p.1 = k) = true :=
    List.find?_some (p := fun q : α × β => decide (q.1 = k)) hfind
  have hk : p.1 = k := of_decide_eq_true hkd
  have hp : p = (k, v) := by
    cases p
    simp only [Prod.mk.injEq]
    exact ⟨hk, hv⟩
  rwa [hp] at hmem

theorem lookupA_eq_none [DecidableEq α] {l : List (α × β)} {k : α}
    (h : k ∉ l.map (·.1)) : lookupA l k = none := by
  unfold lookupA
  have hf : l.find? (fun p => decide (p.1 = k)) = none := by
    rw [List.find?_eq_none]
    intro p hp
    simp only [decide_eq_true_eq]
    intro hk
    exact h (List.mem_map.mpr ⟨p, hp, hk⟩)
  rw [hf]
  rfl

theorem appendTag_inv {P : String → Prop} {ap : List (String × List String)}
    {acc tag : String} (hap : tagInv P ap) (htag : P tag) :
    tagInv P (appendTag ap acc tag) := by
  rcases hlk : lookupA ap acc with _ | tags
  · simp only [appendTag, hlk]
    intro p hp
    rcases List.mem_append.mp hp with h | h
    · exact hap p h
    · simp only [List.mem_singleton] at h
      subst h
      exact ⟨by simp, by
        intro t ht
        simp only [List.mem_singleton] at ht
        subst ht
        exact htag⟩
  · simp only [appendTag, hlk]
    by_cases hin : tag ∈ tags
    · rw [if_pos hin]
      exact hap
    · rw [if_neg hin]
      intro p hp
      rcases List.mem_map.mp hp with ⟨q, hq, hpq⟩
      by_cases hq1 : q.1 = acc
      · rw [if_pos hq1] at hpq
        have htags := hap (acc, tags) (lookupA_mem hlk)
        subst hpq
        refine ⟨by simp, ?_⟩
        intro t ht
        rcases List.mem_append.mp ht with h | h
        · exact htags.2 t h
        · simp only [List.mem_singleton] at h
          subst h
          exact htag
      · rw [if_neg hq1] at hpq
        subst hpq
        exact hap q hq

theorem foldl_appendTag_inv {P : String → Prop} {tag : String} (htag : P tag) :
    ∀ (l : List String) {ap : List (String × List String)}, tagInv P ap →
      tagInv P (l.foldl (fun ap acc => appendTag ap acc tag) ap)
  | [], _, hap => by simpa using hap
  | a :: as, ap, hap => by
    simp only [List.foldl_cons]
    exact foldl_appendTag_inv htag as (appendTag_inv hap htag)

theorem foldl_pair_inv {P : String → Prop} {β γ : Type}
    {F : List γ × List (String × List String) → β →
      List γ × List (String × List String)} :
    ∀ (L : List β) (st : List γ × List (String × List String)),
      (∀ st' b, b ∈ L → tagInv P st'.2 → tagInv P (F st' b).2) →
      tagInv P st.2 → tagInv P (L.foldl F st).2
  | [], _, _, h => by simpa using h
  | b :: bs, st, hF, h => by
    simp only [List.foldl_cons]
    exact foldl_pair_inv bs (F st b)
      (fun st' b' hb' => hF st' b' (List.mem_cons_of_mem _ hb'))
      (hF st b (List.mem_cons_self _ _) h)

theorem detectSmurfing_patternType {txns : List Txn} {r : RingC}
    (h : r ∈ detectSmurfing txns) :
    r.patternType = "fan_in" ∨ r.patternType = "fan_out" := by
  unfold detectSmurfing at h
  rcases List.mem_append.mp h with h | h
  · left
    rcases List.mem_filterMap.mp h with ⟨rcv, _, hr⟩
    simp only [fanInOne] at hr
    rcases Option.map_eq_some'.mp hr with ⟨s, _, hs⟩
    rw [← hs]
  · right
    rcases List.mem_filterMap.mp h with ⟨snd, _, hr⟩
    simp only [fanOutOne] at hr
    rcases Option.map_eq_some'.mp hr with ⟨s, _, hs⟩
    rw [← hs]

theorem detectAll_patterns_inv (txns : List Txn) (rawCycles : List (List String)) :
    tagInv detectorTag (detectAll txns rawCycles).accountPatterns := by
  simp only [detectAll]
  refine foldl_pair_inv _ _ (fun st₃ sm _ hst₃ => ?_)
    (foldl_pair_inv _ _ (fun st₂ smurf hsmurf hst₂ => ?_)
      (foldl_pair_inv _ _ (fun st₁ cm _ hst₁ => ?_)
        (by intro p hp; cases hp)))
  · exact foldl_appendTag_inv (Or.inr (Or.inr (Or.inr rfl))) sm hst₃
  · rcases detectSmurfing_patternType hsmurf with hpt | hpt
    · exact foldl_appendTag_inv (Or.inr (Or.inl hpt)) smurf.members hst₂
    · exact foldl_appendTag_inv (Or.inr (Or.inr (Or.inl hpt))) smurf.members hst₂
  · exact foldl_appendTag_inv (Or.inl ⟨cm.length, rfl⟩) cm hst₁

theorem rawScoresOf_keys (txns : List Txn) (ap : List (String × List String))
    (c : List (String × Cent)) :
    (rawScoresOf txns ap c).map (·.1) = ap.map (·.1) := by
  simp only [rawScoresOf, phase1Of, List.map_map]
  rfl

theorem suspicionScoresOf_keys (txns : List Txn) (ap : List (String × List String))
    (c : List (String × Cent)) :
    (suspicionScoresOf txns ap c).map (·.1) = ap.map (·.1) := by
  simp only [suspicionScoresOf, List.map_map]
  exact rawScoresOf_keys txns ap c

theorem updatedPatternsOf_keys (txns : List Txn) (ap : List (String × List String))
    (c : List (String × Cent)) :
    (updatedPatternsOf txns ap c).map (·.1) = ap.map (·.1) := by
  simp only [updatedPatternsOf, phase1Of, List.map_map]
  rfl

theorem mem_suspiciousOf_keys {txns : List Txn} {rings : List RingC}
    {ap : List (String × List String)} {c : List (String × Cent)} {e : SuspEntry}
    (he : e ∈ suspiciousOf txns rings ap c) : e.accountId ∈ ap.map (·.1) := by
  simp only [suspiciousOf] at he
  rcases List.mem_map.mp (mem_isort.mp he) with ⟨p, hp, hpe⟩
  have hp2 := List.mem_of_mem_filter hp
  have hkey : p.1 ∈ (suspicionScoresOf txns ap c).map (·.1) :=
    List.mem_map.mpr ⟨p, hp2, rfl⟩
  rw [suspicionScoresOf_keys] at hkey
  rw [← hpe]
  exact hkey

/-- C10: only accounts carrying at least one detector-emitted pattern tag
are ever assigned a suspicion score or can appear in
`suspicious_accounts`.  `compute_scores` iterates exclusively over
`account_patterns`: the raw-score, suspicion-score and updated-pattern
tables have exactly the tagged accounts as keys, every flagged entry is a
tagged account, an untagged account has no entry in any table (so no
score, no bonus tags) and is never flagged, and every tagged account's
tag list is nonempty and drawn from the detector tags (`cycle_length_k`,
`fan_in`, `fan_out`, `layered_shell`). -/
theorem C10_tagged_accounts_only (txns : List Txn) (rawCycles : List (List String))
    (centrality : List (String × Cent)) :
    ((computeScores txns (detectAll txns rawCycles).rings
        (detectAll txns rawCycles).accountPatterns centrality).rawScores.map (·.1) =
      (detectAll txns rawCycles).accountPatterns.map (·.1) ∧
     (computeScores txns (detectAll txns rawCycles).rings
        (detectAll txns rawCycles).accountPatterns centrality).suspicionScores.map (·.1) =
      (detectAll txns rawCycles).accountPatterns.map (·.1) ∧
     (computeScores txns (detectAll txns rawCycles).rings
        (detectAll txns rawCycles).accountPatterns centrality).updatedPatterns.map (·.1) =
      (detectAll txns rawCycles).accountPatterns.map (·.1)) ∧
    (∀ e ∈ (computeScores txns (detectAll txns rawCycles).rings
        (detectAll txns rawCycles).accountPatterns centrality).suspiciousAccounts,
      e.accountId ∈ (detectAll txns rawCycles).accountPatterns.map (·.1)) ∧
    (∀ acc, acc ∉ (detectAll txns rawCycles).accountPatterns.map (·.1) →
      lookupA (computeScores txns (detectAll txns rawCycles).rings
        (detectAll txns rawCycles).accountPatterns centrality).rawScores acc = none ∧
      lookupA (computeScores txns (detectAll txns rawCycles).rings
        (detectAll txns rawCycles).accountPatterns centrality).suspicionScores acc = none ∧
      lookupA (computeScores txns (detectAll txns rawCycles).rings
        (detectAll txns rawCycles).accountPatterns centrality).updatedPatterns acc = none ∧
      ∀ e ∈ (computeScores txns (detectAll txns rawCycles).rings
          (detectAll txns rawCycles).accountPatterns centrality).suspiciousAccounts,
        e.accountId ≠ acc) ∧
    (∀ p ∈ (detectAll txns rawCycles).accountPatterns,
      p.2 ≠ [] ∧ ∀ t ∈ p.2, detectorTag t) := by
  have hraw : (computeScores txns (detectAll txns rawCycles).rings
      (detectAll txns rawCycles).accountPatterns centrality).rawScores.map (·.1) =
      (detectAll txns rawCycles).accountPatterns.map (·.1) :=
    rawScoresOf_keys txns _ centrality
  have hsusp : (computeScores txns (detectAll txns rawCycles).rings
      (detectAll txns rawCycles).accountPatterns centrality).suspicionScores.map (·.1) =
      (detectAll txns rawCycles).accountPatterns.map (·.1) :=
    suspicionScoresOf_keys txns _ centrality
  have hupd : (computeScores txns (detectAll txns rawCycles).rings
      (detectAll txns rawCycles).accountPatterns centrality).updatedPatterns.map (·.1) =
      (detectAll txns rawCycles).accountPatterns.map (·.1) :=
    updatedPatternsOf_keys txns _ centrality
  have hflag : ∀ e ∈ (computeScores txns (detectAll txns rawCycles).rings
      (detectAll txns rawCycles).accountPatterns centrality).suspiciousAccounts,
      e.accountId ∈ (detectAll txns rawCycles).accountPatterns.map (·.1) :=
    fun e he => mem_suspiciousOf_keys he
  refine ⟨⟨hraw, hsusp, hupd⟩, hflag, ?_, detectAll_patterns_inv txns rawCycles⟩
  intro acc hacc
  refine ⟨lookupA_eq_none (by rw [hraw]; exact hacc),
    lookupA_eq_none (by rw [hsusp]; exact hacc),
    lookupA_eq_none (by rw [hupd]; exact hacc), ?_⟩
  intro e he heq
  exact hacc (heq ▸ hflag e he)

/-! ### Shell-network soundness (C3) -/

theorem mem_successors {txns : List Txn} {u nb : String} :
    nb ∈ successors txns u ↔ (u, nb) ∈ edgeList txns := by
  unfold successors
  constructor
  · intro h
    rcases List.mem_map.mp h with ⟨e, he, hnb⟩
    have hmem := (List.mem_filter.mp he).1
    have h1 : e.1 = u := of_decide_eq_true (List.mem_filter.mp he).2
    have he2 : e = (u, nb) := by
      cases e
      simp only [Prod.mk.injEq]
      exact ⟨h1, hnb⟩
    rwa [he2] at hmem
  · intro h
    exact List.mem_map.mpr ⟨(u, nb), List.mem_filter.mpr ⟨h, decide_eq_true rfl⟩, rfl⟩

theorem nodup_concat {l : List α} {b : α} (hl : l.Nodup) (hb : b ∉ l) :
    (l ++ [b]).Nodup := by
  rw [List.nodup_append]
  exact ⟨hl, List.nodup_singleton b, fun a ha hb' => by
    simp only [List.mem_singleton] at hb'
    subst hb'
    exact hb ha⟩

theorem isDirectedPath_concat {txns : List Txn} {chain : List String} {cur nb : String}
    (hpath : isDirectedPath txns chain) (hlast : chain.getLast? = some cur)
    (hedge : (cur, nb) ∈ edgeList txns) : isDirectedPath txns (chain ++ [nb]) := by
  rw [isDirectedPath, List.chain'_append]
  refine ⟨hpath, List.chain'_singleton nb, fun x hx y hy => ?_⟩
  rw [hlast] at hx
  simp only [Option.mem_def, Option.some.injEq] at hx
  simp only [List.head?_cons, Option.mem_def, Option.some.injEq] at hy
  subst hx
  subst hy
  exact hedge

theorem processNeighbors_inv {txns : List Txn} {shellB : String → Bool}
    {maxChains maxDepth : ℕ} {chain : List String} {cur : String}
    (hshell : ∀ a, shellB a = true → isShellAcct txns a)
    (hne : chain ≠ []) (hnod : chain.Nodup)
    (hpath : isDirectedPath txns chain) (hlast : chain.getLast? = some cur)
    (hlen : chain.length + 1 ≤ maxDepth) :
    ∀ (nbs : List String) (chains seen : List (List String)),
      (∀ nb ∈ nbs, (cur, nb) ∈ edgeList txns) →
      stateInv txns maxChains maxDepth chains seen →
      chains.length < maxChains →
      stateInv txns maxChains maxDepth
        (processNeighbors shellB maxChains maxDepth chain chain nbs chains seen).1
        (processNeighbors shellB maxChains maxDepth chain chain nbs chains seen).2.1 ∧
      ∀ f ∈ (processNeighbors shellB maxChains maxDepth chain chain nbs chains seen).2.2,
        frameOK txns maxDepth f := by
  intro nbs
  induction nbs with
  | nil =>
    intro chains seen _ hst _
    simp only [processNeighbors]
    exact ⟨hst, fun f hf => absurd hf (List.not_mem_nil f)⟩
  | cons nb rest ih =>
    intro chains seen hedges hst hlt
    have hnbE : (cur, nb) ∈ edgeList txns := hedges nb (List.mem_cons_self _ _)
    have hrest : ∀ x ∈ rest, (cur, x) ∈ edgeList txns :=
      fun x hx => hedges x (List.mem_cons_of_mem _ hx)
    by_cases hvis : nb ∈ chain
    · simp only [processNeighbors, if_pos hvis]
      exact ih chains seen hrest hst hlt
    · have hncNodup : (chain ++ [nb]).Nodup := nodup_concat hnod hvis
      have hncPath : isDirectedPath txns (chain ++ [nb]) :=
        isDirectedPath_concat hpath hlast hnbE
      have hncLast : (chain ++ [nb]).getLast? = some nb := List.getLast?_concat chain
      have hncLen : (chain ++ [nb]).length = chain.length + 1 := by simp
      have hdedup : dedupF (chain ++ [nb]) = chain ++ [nb] := dedupF_eq_self hncNodup
      simp only [processNeighbors, if_neg hvis]
      by_cases hB : (decide (4 ≤ (chain ++ [nb]).length) &&
          !(((chain ++ [nb]).drop 1).dropLast).isEmpty &&
          (((chain ++ [nb]).drop 1).dropLast).all shellB &&
          !(decide (isort strLe (dedupF (chain ++ [nb])) ∈ seen))) = true
      · have hB' := hB
        rw [Bool.and_eq_true, Bool.and_eq_true, Bool.and_eq_true] at hB'
        obtain ⟨⟨⟨h4, _⟩, hall⟩, hfsB⟩ := hB'
        have h4' : 4 ≤ (chain ++ [nb]).length := of_decide_eq_true h4
        have hfs : isort strLe (dedupF (chain ++ [nb])) ∉ seen := by
          have hfalse : decide (isort strLe (dedupF (chain ++ [nb])) ∈ seen) = false := by
            revert hfsB
            cases hd : decide (isort strLe (dedupF (chain ++ [nb])) ∈ seen) <;> simp
          exact of_decide_eq_false hfalse
        have hallShell : ∀ a ∈ ((chain ++ [nb]).drop 1).dropLast, isShellAcct txns a :=
          fun a ha => hshell a (List.all_eq_true.mp hall a ha)
        have hcOK : chainOK txns maxDepth (dedupF (chain ++ [nb])) := by
          rw [hdedup]
          exact ⟨h4', by omega, hncNodup, hncPath, hallShell⟩
        have hstNew : stateInv txns maxChains maxDepth
            (chains ++ [dedupF (chain ++ [nb])])
            (seen ++ [isort strLe (dedupF (chain ++ [nb]))]) := by
          obtain ⟨hOK, hcap, hcov, hpw⟩ := hst
          refine ⟨?_, ?_, ?_, ?_⟩
          · intro c hc
            rcases List.mem_append.mp hc with h | h
            · exact hOK c h
            · simp only [List.mem_singleton] at h
              subst h
              exact hcOK
          · simp only [List.length_append, List.length_singleton]
            omega
          · intro c hc
            rcases List.mem_append.mp hc with h | h
            · exact List.mem_append_left _ (hcov c h)
            · simp only [List.mem_singleton] at h
              subst h
              rw [dedupF_eq_self (nodup_dedupF (chain ++ [nb]))]
              exact List.mem_append_right _ (List.mem_singleton_self _)
          · rw [List.pairwise_append]
            refine ⟨hpw, List.pairwise_singleton _ _, ?_⟩
            intro c hc c' hc' heq
            simp only [List.mem_singleton] at hc'
            subst hc'
            rw [dedupF_eq_self (nodup_dedupF (chain ++ [nb]))] at heq
            exact hfs (heq ▸ hcov c hc)
        simp only [if_pos hB]
        simp only [hB, Bool.true_and]
        by_cases hcap2 : maxChains ≤ (chains ++ [dedupF (chain ++ [nb])]).length
        · rw [if_pos (decide_eq_true hcap2)]
          exact ⟨hstNew, fun f hf => absurd hf (List.not_mem_nil f)⟩
        · rw [if_neg (fun h => hcap2 (of_decide_eq_true h))]
          have hlt' : (chains ++ [dedupF (chain ++ [nb])]).length < maxChains :=
            Nat.lt_of_not_le hcap2
          obtain ⟨ihst, ihfr⟩ := ih (chains ++ [dedupF (chain ++ [nb])])
            (seen ++ [isort strLe (dedupF (chain ++ [nb]))]) hrest hstNew hlt'
          refine ⟨ihst, ?_⟩
          intro f hf
          rcases List.mem_append.mp hf with hf | hf
          · by_cases hp : (chain ++ [nb]).length < maxDepth
            · rw [if_pos hp] at hf
              simp only [List.mem_singleton] at hf
              subst hf
              exact ⟨rfl, by simp, hncNodup, hncPath, hncLast,
                (show (chain ++ [nb]).length + 1 ≤ maxDepth by omega)⟩
            · rw [if_neg hp] at hf
              exact absurd hf (List.not_mem_nil f)
          · exact ihfr f hf
      · have hBf : (decide (4 ≤ (chain ++ [nb]).length) &&
            !(((chain ++ [nb]).drop 1).dropLast).isEmpty &&
            (((chain ++ [nb]).drop 1).dropLast).all shellB &&
            !(decide (isort strLe (dedupF (chain ++ [nb])) ∈ seen))) = false :=
          Bool.eq_false_iff.mpr hB
        simp only [if_neg hB, hBf, Bool.false_and, if_neg Bool.false_ne_true]
        obtain ⟨ihst, ihfr⟩ := ih chains seen hrest hst hlt
        refine ⟨ihst, ?_⟩
        intro f hf
        rcases List.mem_append.mp hf with hf | hf
        · by_cases hp : (chain ++ [nb]).length < maxDepth
          · rw [if_pos hp] at hf
            simp only [List.mem_singleton] at hf
            subst hf
            exact ⟨rfl, by simp, hncNodup, hncPath, hncLast,
              (show (chain ++ [nb]).length + 1 ≤ maxDepth by omega)⟩
          · rw [if_neg hp] at hf
            exact absurd hf (List.not_mem_nil f)
        · exact ihfr f hf

theorem dfsWhile_inv {txns : List Txn} {shellB : String → Bool}
    {maxChains maxDepth : ℕ}
    (hshell : ∀ a, shellB a = true → isShellAcct txns a) :
    ∀ (fuel : ℕ) (stack : List (String × List String × List String))
      (chains seen : List (List String)),
      (∀ f ∈ stack, frameOK txns maxDepth f) →
      stateInv txns maxChains maxDepth chains seen →
      stateInv txns maxChains maxDepth
        (dfsWhile shellB (successors txns) maxChains maxDepth fuel stack chains seen).1
        (dfsWhile shellB (successors txns) maxChains maxDepth fuel stack chains seen).2
  | 0, stack, chains, seen, _, hst => by
    simp only [dfsWhile]
    exact hst
  | fuel + 1, stack, chains, seen, hfr, hst => by
    rcases stack with _ | ⟨⟨cur, visited, chain⟩, rest⟩
    · simp only [dfsWhile]
      by_cases hcap : maxChains ≤ chains.length
      · rw [if_pos hcap]
        exact hst
      · rw [if_neg hcap]
        exact hst
    · simp only [dfsWhile]
      by_cases hcap : maxChains ≤ chains.length
      · rw [if_pos hcap]
        exact hst
      · rw [if_neg hcap]
        obtain ⟨hvc, hne, hnod, hpath, hlast, hlen⟩ := hfr _ (List.mem_cons_self _ _)
        have hvc' : visited = chain := hvc
        rw [hvc']
        have hlen' : chain.length + 1 ≤ maxDepth := hlen
        rw [if_neg (by omega : ¬ maxDepth < chain.length)]
        have hlt : chains.length < maxChains := Nat.lt_of_not_le hcap
        obtain ⟨hpst, hpfr⟩ := processNeighbors_inv hshell hne hnod hpath hlast hlen'
          (successors txns cur) chains seen
          (fun x hx => mem_successors.mp hx) hst hlt
        apply dfsWhile_inv hshell fuel _ _ _ ?_ hpst
        intro f hf
        rcases List.mem_append.mp hf with hf | hf
        · exact hpfr f (List.mem_reverse.mp hf)
        · exact hfr f (List.mem_cons_of_mem _ hf)

theorem dfs_start_frameOK {txns : List Txn} {maxDepth : ℕ} (start : String)
    (h2 : 2 ≤ maxDepth) :
    frameOK txns maxDepth (start, [start], [start]) := by
  refine ⟨rfl, by simp, List.nodup_singleton start, List.chain'_singleton start, rfl, ?_⟩
  show ([start] : List String).length + 1 ≤ maxDepth
  simp only [List.length_singleton]
  omega

theorem foldl_dfs_inv {txns : List Txn} (shellB : String → Bool) (fuel : ℕ)
    (hshell : ∀ a, shellB a = true → isShellAcct txns a) :
    ∀ (starts : List String) (st : List (List String) × List (List String)),
      stateInv txns 100 6 st.1 st.2 →
      stateInv txns 100 6
        (starts.foldl (fun st start =>
          if (100 : ℕ) ≤ st.1.length then st
          else dfsWhile shellB (successors txns) 100 6 fuel
            [(start, [start], [start])] st.1 st.2) st).1
        (starts.foldl (fun st start =>
          if (100 : ℕ) ≤ st.1.length then st
          else dfsWhile shellB (successors txns) 100 6 fuel
            [(start, [start], [start])] st.1 st.2) st).2
  | [], st, hst => by simpa using hst
  | start :: srest, st, hst => by
    simp only [List.foldl_cons]
    apply foldl_dfs_inv shellB fuel hshell srest
    by_cases hc : (100 : ℕ) ≤ st.1.length
    · rw [if_pos hc]
      exact hst
    · rw [if_neg hc]
      exact dfsWhile_inv hshell fuel [(start, [start], [start])] st.1 st.2
        (fun f hf => by
          simp only [List.mem_singleton] at hf
          subst hf
          exact dfs_start_frameOK start (by omega))
        hst

theorem detectShellNetworks_sound (txns : List Txn) :
    (∀ c ∈ detectShellNetworks txns, chainOK txns 6 c) ∧
    (detectShellNetworks txns).length ≤ 100 ∧
    List.Pairwise (fun c₁ c₂ => isort strLe (dedupF c₁) ≠ isort strLe (dedupF c₂))
      (detectShellNetworks txns) := by
  have hstart : stateInv txns 100 6 [] [] :=
    ⟨fun c hc => absurd hc (List.not_mem_nil c), by simp,
      fun c hc => absurd hc (List.not_mem_nil c), List.Pairwise.nil⟩
  simp only [detectShellNetworks]
  by_cases hsh : (((nodeList txns).filter
      (fun a => decide (2 ≤ txCount txns a ∧ txCount txns a ≤ 3))).isEmpty) = true
  · rw [if_pos hsh]
    exact ⟨fun c hc => absurd hc (List.not_mem_nil c), by simp, List.Pairwise.nil⟩
  · rw [if_neg hsh]
    have h := foldl_dfs_inv (fun a => decide (2 ≤ txCount txns a ∧ txCount txns a ≤ 3))
      (((nodeList txns).length + 1) ^ 6)
      (fun a ha => (of_decide_eq_true ha : 2 ≤ txCount txns a ∧ txCount txns a ≤ 3))
      (nodeList txns) ([], []) hstart
    exact ⟨h.1, h.2.1, h.2.2.2⟩

/-- C3 (amended): every emitted layered-shell chain is a simple directed
path of 4 to 6 nodes (3 to 5 edges) whose interior nodes are all shell
accounts; emitted chains have pairwise-distinct vertex sets and at most
100 are emitted, the cap stopping enumeration silently.  The depth bound
`max_depth = 6` caps `len(chain)` — the NODE count, not the edge count —
so a qualifying 6-node (5-edge) simple path is discoverable, as on the
pure chain `A1 → ⋯ → A6`, while 7-node (6-edge) paths never are. -/
theorem C3_shell_chains (txns : List Txn) :
    (∀ c ∈ detectShellNetworks txns,
      4 ≤ c.length ∧ c.length ≤ 6 ∧ c.Nodup ∧ isDirectedPath txns c ∧
        ∀ a ∈ (c.drop 1).dropLast, isShellAcct txns a) ∧
    (detectShellNetworks txns).length ≤ 100 ∧
    List.Pairwise (fun c₁ c₂ => isort strLe (dedupF c₁) ≠ isort strLe (dedupF c₂))
      (detectShellNetworks txns) ∧
    ["A1", "A2", "A3", "A4", "A5", "A6"] ∈ detectShellNetworks (chainTxns 6) := by
  obtain ⟨h1, h2, h3⟩ := detectShellNetworks_sound txns
  exact ⟨fun c hc => h1 c hc, h2, h3, by decide⟩

/-- C3 counterexample: on the pure 7-node directed chain `A1 → ⋯ → A7`
the full path qualifies under the claim's reading — a simple directed
path whose five interior accounts are all shell accounts, with 6 edges,
within the claimed 6-edge search depth — yet `_detect_shell_networks`
never emits it: `max_depth = 6` bounds `len(chain)`, the node count, so
every emitted chain has at most 6 nodes (5 edges). -/
theorem C3_counterexample :
    isDirectedPath (chainTxns 7) ["A1", "A2", "A3", "A4", "A5", "A6", "A7"] ∧
    (["A1", "A2", "A3", "A4", "A5", "A6", "A7"] : List String).Nodup ∧
    (∀ a ∈ ((["A1", "A2", "A3", "A4", "A5", "A6", "A7"] : List String).drop 1).dropLast,
      isShellAcct (chainTxns 7) a) ∧
    (["A1", "A2", "A3", "A4", "A5", "A6", "A7"] : List String).length = 7 ∧
    (detectShellNetworks (chainTxns 7)).all (fun c => decide (c.length ≤ 6)) = true ∧
    ["A1", "A2", "A3", "A4", "A5", "A6", "A7"] ∉ detectShellNetworks (chainTxns 7) := by
  refine ⟨by
      unfold isDirectedPath
      simp only [List.chain'_cons, List.chain'_singleton, and_true]
      decide,
    by decide, by unfold isShellAcct; decide, rfl, by decide, by decide⟩

/-! ### Rolling-window two-pointer correctness (C2) -/

theorem lookupA_cons [DecidableEq α] (p : α × β) (rest : List (α × β)) (k : α) :
    lookupA (p :: rest) k = if p.1 = k then some p.2 else lookupA rest k := by
  by_cases h : p.1 = k
  · rw [if_pos h, lookupA, List.find?_cons, decide_eq_true h]
    rfl
  · rw [if_neg h, lookupA, List.find?_cons, decide_eq_false h]
    rfl

theorem lookupA_isSome_iff [DecidableEq α] {l : List (α × β)} {k : α} :
    (lookupA l k).isSome = true ↔ k ∈ l.map (·.1) := by
  induction l with
  | nil => simp [lookupA]
  | cons p rest ih =>
    rw [lookupA_cons, List.map_cons, List.mem_cons]
    by_cases h : p.1 = k
    · rw [if_pos h]
      simp [h]
    · rw [if_neg h]
      rw [ih]
      constructor
      · exact Or.inr
      · rintro (he | hm)
        · exact absurd he.symm h
        · exact hm

theorem lookupA_incrCount (counts : List (String × ℕ)) (k k' : String) :
    lookupA (incrCount counts k) k' =
      if k' = k then some ((lookupA counts k).getD 0 + 1) else lookupA counts k' := by
  induction counts with
  | nil =>
    by_cases h : k' = k
    · subst h
      simp [incrCount, lookupA_cons, lookupA]
    · have h2 : ¬ k = k' := fun he => h he.symm
      simp [incrCount, lookupA_cons, lookupA, h, h2]
  | cons p rest ih =>
    by_cases hp : p.1 = k
    · by_cases h : k' = k
      · subst h
        simp [incrCount, hp, lookupA_cons]
      · have h2 : ¬ p.1 = k' := fun he => h (he.symm.trans hp)
        have h3 : ¬ k = k' := fun he => h he.symm
        simp [incrCount, hp, lookupA_cons, h, h2, h3]
    · by_cases h1 : p.1 = k'
      · have h2 : ¬ k' = k := fun he => hp (h1.trans he)
        simp [incrCount, hp, lookupA_cons, h1, h2]
      · simp [incrCount, hp, lookupA_cons, h1, ih]

theorem incrCount_keys (counts : List (String × ℕ)) (k : String) :
    (incrCount counts k).map (·.1) =
      if k ∈ counts.map (·.1) then counts.map (·.1) else counts.map (·.1) ++ [k] := by
  induction counts with
  | nil => simp [incrCount]
  | cons p rest ih =>
    by_cases hp : p.1 = k
    · simp [incrCount, hp]
    · have hsym : ¬ k = p.1 := fun he => hp he.symm
      by_cases h : k ∈ rest.map (·.1)
      · simp [incrCount, hp, hsym, ih, h]
      · simp [incrCount, hp, hsym, ih, h]

theorem incrCount_pos {counts : List (String × ℕ)} {k : String}
    (h : ∀ p ∈ counts, 0 < p.2) : ∀ p ∈ incrCount counts k, 0 < p.2 := by
  induction counts with
  | nil =>
    intro p hp
    simp only [incrCount, List.mem_singleton] at hp
    subst hp
    exact Nat.one_pos
  | cons q rest ih =>
    intro p hp
    simp only [incrCount] at hp
    by_cases hq : q.1 = k
    · rw [if_pos hq] at hp
      rcases List.mem_cons.mp hp with rfl | hm
      · exact Nat.succ_pos _
      · exact h p (List.mem_cons_of_mem _ hm)
    · rw [if_neg hq] at hp
      rcases List.mem_cons.mp hp with rfl | hm
      · exact h p (List.mem_cons_self _ _)
      · exact ih (fun q' hq' => h q' (List.mem_cons_of_mem _ hq')) p hm

theorem lookupA_decrDel {counts : List (String × ℕ)}
    (hnd : (counts.map (·.1)).Nodup) (k k' : String) :
    lookupA (decrDel counts k) k' =
      if k' = k then
        match lookupA counts k with
        | none => none
        | some v => if v ≤ 1 then none else some (v - 1)
      else lookupA counts k' := by
  induction counts with
  | nil =>
    simp only [decrDel]
    by_cases h : k' = k
    · rw [if_pos h]
      simp [lookupA]
    · rw [if_neg h]
  | cons p rest ih =>
    rw [List.map_cons, List.nodup_cons] at hnd
    by_cases hp : p.1 = k
    · by_cases hv : p.2 ≤ 1
      · by_cases h : k' = k
        · have hnone : lookupA rest k = none := by
            apply lookupA_eq_none
            rw [← hp]
            exact hnd.1
          simp [decrDel, hp, hv, h, lookupA_cons, hnone]
        · have h2 : ¬ p.1 = k' := fun he => h (he.symm.trans hp)
          have h3 : ¬ k = k' := fun he => h he.symm
          simp [decrDel, hp, hv, h, h2, h3, lookupA_cons]
      · by_cases h : k' = k
        · simp [decrDel, hp, hv, h, lookupA_cons]
        · have h2 : ¬ p.1 = k' := fun he => h (he.symm.trans hp)
          have h3 : ¬ k = k' := fun he => h he.symm
          simp [decrDel, hp, hv, h, h2, h3, lookupA_cons]
    · by_cases h1 : p.1 = k'
      · have h2 : ¬ k' = k := fun he => hp (h1.trans he)
        simp [decrDel, hp, h1, h2, lookupA_cons]
      · simp [decrDel, hp, h1, lookupA_cons, ih hnd.2]

theorem decrDel_keys_sublist (counts : List (String × ℕ)) (k : String) :
    ((decrDel counts k).map (·.1)).Sublist (counts.map (·.1)) := by
  induction counts with
  | nil => simp [decrDel]
  | cons p rest ih =>
    simp only [decrDel]
    by_cases hp : p.1 = k
    · rw [if_pos hp]
      by_cases hv : p.2 ≤ 1
      · rw [if_pos hv, List.map_cons]
        exact (List.Sublist.refl _).cons _
      · rw [if_neg hv, List.map_cons, List.map_cons]
    · rw [if_neg hp, List.map_cons, List.map_cons]
      exact ih.cons₂ _

theorem decrDel_length (counts : List (String × ℕ)) (k : String) :
    (decrDel counts k).length =
      match lookupA counts k with
      | none => counts.length
      | some v => if v ≤ 1 then counts.length - 1 else counts.length := by
  induction counts with
  | nil => simp [decrDel, lookupA]
  | cons p rest ih =>
    by_cases hp : p.1 = k
    · by_cases hv : p.2 ≤ 1
      · simp [decrDel, lookupA_cons, hp, hv]
      · simp [decrDel, lookupA_cons, hp, hv]
    · have hLK : lookupA (p :: rest) k = lookupA rest k := by
        rw [lookupA_cons, if_neg hp]
      have hDD : decrDel (p :: rest) k = p :: decrDel rest k := by
        simp [decrDel, hp]
      rw [hLK, hDD, List.length_cons, ih]
      rcases hl : lookupA rest k with _ | v
      · simp
      · by_cases hv : v ≤ 1
        · have hlen : 0 < rest.length := by
            have hm : k ∈ rest.map (·.1) := by
              rw [← lookupA_isSome_iff, hl]
              rfl
            rcases rest with _ | _
            · simp at hm
            · simp
          simp [hv]
          exact Nat.sub_add_cancel hlen
        · simp [hv]

theorem decrDel_pos {counts : List (String × ℕ)} {k : String}
    (h : ∀ p ∈ counts, 0 < p.2) : ∀ p ∈ decrDel counts k, 0 < p.2 := by
  induction counts with
  | nil =>
    intro p hp
    simp [decrDel] at hp
  | cons q rest ih =>
    intro p hp
    simp only [decrDel] at hp
    by_cases hq : q.1 = k
    · rw [if_pos hq] at hp
      by_cases hv : q.2 ≤ 1
      · rw [if_pos hv] at hp
        exact h p (List.mem_cons_of_mem _ hp)
      · rw [if_neg hv] at hp
        rcases List.mem_cons.mp hp with rfl | hm
        · simp only
          omega
        · exact h p (List.mem_cons_of_mem _ hm)
    · rw [if_neg hq] at hp
      rcases List.mem_cons.mp hp with rfl | hm
      · exact h p (List.mem_cons_self _ _)
      · exact ih (fun q' hq' => h q' (List.mem_cons_of_mem _ hq')) p hm

theorem decrDel_length_of_one {counts : List (String × ℕ)} {k : String}
    (h : lookupA counts k = some 1) :
    (decrDel counts k).length = counts.length - 1 := by
  rw [decrDel_length, h]
  simp

theorem decrDel_length_of_gt {counts : List (String × ℕ)} {k : String} {v : ℕ}
    (hv : lookupA counts k = some v) (h1 : 1 < v) :
    (decrDel counts k).length = counts.length := by
  rw [decrDel_length, hv]
  simp
  omega

theorem cInv_mem_iff {S : List String} {counts : List (String × ℕ)} {uc : ℕ}
    (h : cInv S counts uc) (x : String) :
    x ∈ counts.map (·.1) ↔ x ∈ S := by
  obtain ⟨hnd, hcnt, hpos, _⟩ := h
  rw [← lookupA_isSome_iff]
  constructor
  · intro hx
    rcases ho : lookupA counts x with _ | v
    · rw [ho] at hx
      exact absurd hx (by simp)
    · have hv : 0 < v := hpos (x, v) (lookupA_mem ho)
      have hc := hcnt x
      rw [ho, Option.getD_some] at hc
      exact List.count_pos_iff.mp (hc ▸ hv)
  · intro hx
    have hc0 : 0 < S.count x := List.count_pos_iff.mpr hx
    have hc := hcnt x
    rcases ho : lookupA counts x with _ | v
    · rw [ho, Option.getD_none] at hc
      omega
    · rfl

theorem cInv_uc_eq_distinct {S : List String} {counts : List (String × ℕ)} {uc : ℕ}
    (h : cInv S counts uc) : uc = distinctCount S := by
  obtain ⟨hnd, hcnt, hpos, hlen⟩ := h
  calc uc = counts.length := hlen
    _ = (counts.map (·.1)).length := (List.length_map _ _).symm
    _ = (counts.map (·.1)).toFinset.card := (List.toFinset_card_of_nodup hnd).symm
    _ = (dedupF S).toFinset.card := by
        congr 1
        ext x
        simp only [List.mem_toFinset]
        rw [mem_dedupF]
        exact cInv_mem_iff ⟨hnd, hcnt, hpos, hlen⟩ x
    _ = (dedupF S).length := List.toFinset_card_of_nodup (nodup_dedupF S)
    _ = distinctCount S := rfl

theorem cInv_incr {S : List String} {counts : List (String × ℕ)} {uc : ℕ} {k : String}
    (h : cInv S counts uc) :
    cInv (S ++ [k]) (incrCount counts k)
      (if lookupA (incrCount counts k) k = some 1 then uc + 1 else uc) := by
  obtain ⟨hnd, hcnt, hpos, hlen⟩ := h
  have hkeys := incrCount_keys counts k
  have hlk := lookupA_incrCount counts k
  refine ⟨?_, ?_, incrCount_pos hpos, ?_⟩
  · rw [hkeys]
    by_cases hm : k ∈ counts.map (·.1)
    · rw [if_pos hm]
      exact hnd
    · rw [if_neg hm]
      exact nodup_concat hnd hm
  · intro k'
    rw [hlk k']
    by_cases he : k' = k
    · subst he
      rw [if_pos rfl, Option.getD_some, hcnt k', List.count_append]
      simp [List.count_cons]
    · rw [if_neg he, hcnt k', List.count_append]
      have hz : List.count k' [k] = 0 := by
        simp [List.count_cons, he]
      rw [hz]
      omega
  · by_cases hm : k ∈ counts.map (·.1)
    · have hex : ∃ v, lookupA counts k = some v := by
        have hs := lookupA_isSome_iff.mpr hm
        rcases ho : lookupA counts k with _ | v
        · rw [ho] at hs
          exact absurd hs (by simp)
        · exact ⟨v, rfl⟩
      rcases hex with ⟨v, hv⟩
      have hvpos : 0 < v := hpos (k, v) (lookupA_mem hv)
      have hcond : ¬ (lookupA (incrCount counts k) k = some 1) := by
        rw [hlk k, if_pos rfl, hv, Option.getD_some]
        intro hcontra
        have hv1 : v + 1 = 1 := Option.some.inj hcontra
        omega
      rw [if_neg hcond, hlen]
      have hL : (incrCount counts k).length = counts.length := by
        have h1 : ((incrCount counts k).map (·.1)).length = (counts.map (·.1)).length := by
          rw [hkeys, if_pos hm]
        rw [List.length_map, List.length_map] at h1
        exact h1
      exact hL.symm
    · have hnone : lookupA counts k = none := lookupA_eq_none hm
      have hcond : lookupA (incrCount counts k) k = some 1 := by
        rw [hlk k, if_pos rfl, hnone]
        rfl
      rw [if_pos hcond, hlen]
      have hL : (incrCount counts k).length = counts.length + 1 := by
        have h1 : ((incrCount counts k).map (·.1)).length =
            (counts.map (·.1)).length + 1 := by
          rw [hkeys, if_neg hm, List.length_append, List.length_singleton]
        rw [List.length_map, List.length_map] at h1
        exact h1
      exact hL.symm

theorem cInv_decr {S : List String} {counts : List (String × ℕ)} {uc : ℕ} {k : String}
    (h : cInv (k :: S) counts uc) :
    cInv S (decrDel counts k)
      (if lookupA counts k = some 1 then uc - 1 else uc) := by
  obtain ⟨hnd, hcnt, hpos, hlen⟩ := h
  have hck : (lookupA counts k).getD 0 = S.count k + 1 := by
    rw [hcnt k]
    simp [List.count_cons]
  have hsome : lookupA counts k = some (S.count k + 1) := by
    rcases ho : lookupA counts k with _ | v
    · rw [ho, Option.getD_none] at hck
      exact absurd hck.symm (by omega)
    · rw [ho, Option.getD_some] at hck
      rw [hck]
  refine ⟨hnd.sublist (decrDel_keys_sublist counts k), ?_, decrDel_pos hpos, ?_⟩
  · intro k'
    rw [lookupA_decrDel hnd k k']
    by_cases he : k' = k
    · subst he
      rw [if_pos rfl, hsome]
      by_cases hz : S.count k' = 0
      · simp [hz]
      · have hgt : ¬ (S.count k' + 1 ≤ 1) := by omega
        simp [hgt]
    · rw [if_neg he, hcnt k']
      have hcc : (k :: S).count k' = S.count k' := by
        simp [List.count_cons, fun hh : k' = k => he hh]
      rw [hcc]
  · by_cases hone : lookupA counts k = some 1
    · rw [if_pos hone, hlen]
      exact (decrDel_length_of_one hone).symm
    · rw [if_neg hone, hlen]
      have hgt : 1 < S.count k + 1 := by
        rcases Nat.eq_zero_or_pos (S.count k) with hz | hp
        · exact absurd (by rw [hsome, hz]) hone
        · omega
      exact (decrDel_length_of_gt hsome hgt).symm

theorem sliceIds_self (arr : List (String × ℤ)) (l : ℕ) : sliceIds arr l l = [] := by
  simp [sliceIds]

theorem sliceIds_snoc {arr : List (String × ℤ)} {l r : ℕ} (hl : l ≤ r)
    (hr : r < arr.length) :
    sliceIds arr l (r + 1) = sliceIds arr l r ++ [(arr.getD r ("", 0)).1] := by
  rw [sliceIds, sliceIds]
  have h1 : r + 1 - l = (r - l) + 1 := by omega
  rw [h1, List.take_succ, List.map_append]
  congr 1
  have h2 : (arr.drop l)[r - l]? = some (arr.getD r ("", 0)) := by
    rw [List.getElem?_drop]
    have h3 : l + (r - l) = r := by omega
    rw [h3, List.getElem?_eq_getElem hr, List.getD_eq_getElem arr ("", 0) hr]
  rw [h2]
  rfl

theorem sliceIds_cons {arr : List (String × ℤ)} {l r : ℕ} (hlr : l < r)
    (hl : l < arr.length) :
    sliceIds arr l r = (arr.getD l ("", 0)).1 :: sliceIds arr (l + 1) r := by
  rw [sliceIds, sliceIds, List.drop_eq_getElem_cons hl]
  have h1 : r - l = (r - (l + 1)) + 1 := by omega
  rw [h1, List.take_succ_cons, List.map_cons]
  congr 1
  rw [List.getD_eq_getElem arr ("", 0) hl]

theorem mem_sliceIds {arr : List (String × ℤ)} {l r : ℕ} {x : String} :
    x ∈ sliceIds arr l r ↔
      ∃ j, l ≤ j ∧ j < r ∧ j < arr.length ∧ (arr.getD j ("", 0)).1 = x := by
  rw [sliceIds]
  constructor
  · intro hx
    rcases List.mem_map.mp hx with ⟨p, hp, hpx⟩
    rcases List.mem_iff_getElem?.mp hp with ⟨i, hi⟩
    rw [List.getElem?_take] at hi
    by_cases hir : i < r - l
    · rw [if_pos hir, List.getElem?_drop] at hi
      have hlen : l + i < arr.length := by
        by_contra hc
        rw [List.getElem?_eq_none (by omega)] at hi
        exact Option.noConfusion hi
      refine ⟨l + i, by omega, by omega, hlen, ?_⟩
      rw [List.getD_eq_getElem arr ("", 0) hlen]
      rw [List.getElem?_eq_getElem hlen] at hi
      have hip : arr[l + i] = p := Option.some.inj hi
      rw [hip, hpx]
    · rw [if_neg hir] at hi
      exact Option.noConfusion hi
  · rintro ⟨j, hlj, hjr, hjn, hx⟩
    apply List.mem_map.mpr
    refine ⟨arr.getD j ("", 0), ?_, hx⟩
    apply List.mem_iff_getElem?.mpr
    refine ⟨j - l, ?_⟩
    rw [List.getElem?_take, if_pos (by omega : j - l < r - l), List.getElem?_drop]
    have h3 : l + (j - l) = j := by omega
    rw [h3, List.getElem?_eq_getElem hjn, List.getD_eq_getElem arr ("", 0) hjn]

theorem distinctCount_subset {l₁ l₂ : List String} (h : ∀ x ∈ l₁, x ∈ l₂) :
    distinctCount l₁ ≤ distinctCount l₂ := by
  rw [distinctCount, distinctCount, length_dedupF_eq_card, length_dedupF_eq_card]
  apply Finset.card_le_card
  intro x hx
  rw [List.mem_toFinset] at hx ⊢
  exact h x hx

theorem distinctCount_le_length (l : List String) : distinctCount l ≤ l.length := by
  rw [distinctCount, length_dedupF_eq_card]
  exact l.toFinset_card_le

theorem windowSlice_eq_sliceIds (arr : List (String × ℤ)) (l r : ℕ) :
    windowSlice arr l r = sliceIds arr l (r + 1) := rfl

theorem shrinkWindow_spec {arr : List (String × ℤ)}
    (hsort : ∀ i j, i ≤ j → j < arr.length →
      (arr.getD i ("", 0)).2 ≤ (arr.getD j ("", 0)).2)
    {right : ℕ} (hrn : right < arr.length) :
    ∀ (fuel left : ℕ) (counts : List (String × ℕ)) (uc : ℕ)
      (lres : ℕ) (cres : List (String × ℕ)) (ucres : ℕ),
      fuel = right - left → left ≤ right →
      cInv (sliceIds arr left (right + 1)) counts uc →
      shrinkWindow arr (arr.getD right ("", 0)).2 fuel left counts uc =
        (lres, cres, ucres) →
      left ≤ lres ∧ lres ≤ right ∧
      ¬ (windowSeconds < (arr.getD right ("", 0)).2 - (arr.getD lres ("", 0)).2) ∧
      (∀ j, left ≤ j → j < lres →
        windowSeconds < (arr.getD right ("", 0)).2 - (arr.getD j ("", 0)).2) ∧
      cInv (sliceIds arr lres (right + 1)) cres ucres
  | 0, left, counts, uc, lres, cres, ucres => by
    intro hfuel hle hcinv heq
    simp only [shrinkWindow] at heq
    injection heq with h1 h23
    injection h23 with h2 h3
    subst h1
    subst h2
    subst h3
    have hlr : left = right := by omega
    subst hlr
    refine ⟨le_refl _, le_refl _, ?_, by intro j h1 h2; omega, hcinv⟩
    rw [show windowSeconds = (259200 : ℤ) from rfl]
    omega
  | fuel + 1, left, counts, uc, lres, cres, ucres => by
    intro hfuel hle hcinv heq
    simp only [shrinkWindow] at heq
    by_cases hg : windowSeconds <
        (arr.getD right ("", 0)).2 - (arr.getD left ("", 0)).2
    · rw [if_pos hg] at heq
      have hlr : left < right := by
        by_contra hc
        have hel : left = right := by omega
        rw [hel, show windowSeconds = (259200 : ℤ) from rfl] at hg
        omega
      have hcons : sliceIds arr left (right + 1) =
          (arr.getD left ("", 0)).1 :: sliceIds arr (left + 1) (right + 1) :=
        sliceIds_cons (by omega) (by omega)
      rw [hcons] at hcinv
      have hcinv' := cInv_decr hcinv
      obtain ⟨ih1, ih2, ih3, ih4, ih5⟩ := shrinkWindow_spec hsort hrn fuel (left + 1)
        (decrDel counts ((arr.getD left ("", 0)).1))
        (if lookupA counts ((arr.getD left ("", 0)).1) = some 1 then uc - 1 else uc)
        lres cres ucres (by omega) (by omega) hcinv' heq
      refine ⟨by omega, ih2, ih3, ?_, ih5⟩
      intro j hj1 hj2
      rcases Nat.eq_or_lt_of_le hj1 with rfl | hlt
      · exact hg
      · exact ih4 j (by omega) hj2
    · rw [if_neg hg] at heq
      injection heq with h1 h23
      injection h23 with h2 h3
      subst h1
      subst h2
      subst h3
      exact ⟨le_refl _, hle, hg, by intro j h1 h2; omega, hcinv⟩

theorem rwcAux_spec {arr : List (String × ℤ)} (θ : ℕ)
    (hsort : ∀ i j, i ≤ j → j < arr.length →
      (arr.getD i ("", 0)).2 ≤ (arr.getD j ("", 0)).2) :
    ∀ (fuel right left : ℕ) (counts : List (String × ℕ)) (uc : ℕ),
      fuel = arr.length - right → left ≤ right → right ≤ arr.length →
      cInv (sliceIds arr left right) counts uc →
      (∀ j, j < left → ∀ rr, right ≤ rr → rr < arr.length →
        windowSeconds < (arr.getD rr ("", 0)).2 - (arr.getD j ("", 0)).2) →
      (rwcAux arr θ fuel right left counts uc = none →
        ∀ l rr, l ≤ rr → rr < arr.length → right ≤ rr →
          (arr.getD rr ("", 0)).2 - (arr.getD l ("", 0)).2 ≤ windowSeconds →
          distinctCount (windowSlice arr l rr) < θ) ∧
      (∀ s, rwcAux arr θ fuel right left counts uc = some s →
        ∃ l rr, l ≤ rr ∧ rr < arr.length ∧
          (arr.getD rr ("", 0)).2 - (arr.getD l ("", 0)).2 ≤ windowSeconds ∧
          θ ≤ distinctCount (windowSlice arr l rr) ∧
          ∀ x, x ∈ s ↔ x ∈ windowSlice arr l rr)
  | 0, right, left, counts, uc => by
    intro hfuel hle hrn hcinv hLM
    constructor
    · intro _ l rr hlrr hrrn hrrge hspan
      omega
    · intro s hs
      simp only [rwcAux] at hs
      exact Option.noConfusion hs
  | fuel + 1, right, left, counts, uc => by
    intro hfuel hle hrn hcinv hLM
    have hrlt : right < arr.length := by omega
    have hcinc := cInv_incr (k := (arr.getD right ("", 0)).1) hcinv
    rw [← sliceIds_snoc hle hrlt] at hcinc
    rcases hS : shrinkWindow arr (arr.getD right ("", 0)).2 (right - left) left
        (incrCount counts ((arr.getD right ("", 0)).1))
        (if lookupA (incrCount counts ((arr.getD right ("", 0)).1))
            ((arr.getD right ("", 0)).1) = some 1 then uc + 1 else uc)
      with ⟨lres, cres, ucres⟩
    obtain ⟨hs1, hs2, hs3, hs4, hs5⟩ := shrinkWindow_spec hsort hrlt (right - left) left
      _ _ lres cres ucres rfl hle hcinc hS
    have hLM' : ∀ j, j < lres → ∀ rr, right + 1 ≤ rr → rr < arr.length →
        windowSeconds < (arr.getD rr ("", 0)).2 - (arr.getD j ("", 0)).2 := by
      intro j hj rr hrr1 hrr2
      rcases Nat.lt_or_ge j left with hjl | hjl
      · exact hLM j hjl rr (by omega) hrr2
      · have h1 := hs4 j hjl hj
        have h2 := hsort right rr (by omega) hrr2
        omega
    have hwin : ∀ l, l ≤ right →
        (arr.getD right ("", 0)).2 - (arr.getD l ("", 0)).2 ≤ windowSeconds →
        distinctCount (windowSlice arr l right) ≤ ucres := by
      intro l hlr hspan
      have hlge : lres ≤ l := by
        by_contra hc
        rcases Nat.lt_or_ge l left with hjl | hjl
        · have := hLM l hjl right (le_refl _) hrlt
          omega
        · have := hs4 l hjl (by omega)
          omega
      have hsub : ∀ x ∈ windowSlice arr l right, x ∈ windowSlice arr lres right := by
        intro x hx
        rw [windowSlice_eq_sliceIds] at hx ⊢
        rcases mem_sliceIds.mp hx with ⟨j, hj1, hj2, hj3, hj4⟩
        exact mem_sliceIds.mpr ⟨j, by omega, hj2, hj3, hj4⟩
      calc distinctCount (windowSlice arr l right)
          ≤ distinctCount (windowSlice arr lres right) := distinctCount_subset hsub
        _ = ucres := by
            rw [windowSlice_eq_sliceIds]
            exact (cInv_uc_eq_distinct hs5).symm
    simp only [rwcAux]
    rw [hS]
    dsimp only
    by_cases hth : θ ≤ ucres
    · rw [if_pos hth]
      constructor
      · intro hcontra
        exact absurd hcontra (by simp)
      · intro s hs
        have hseq : cres.map (·.1) = s := Option.some.inj hs
        refine ⟨lres, right, hs2, hrlt, by omega, ?_, ?_⟩
        · rw [windowSlice_eq_sliceIds]
          rw [← cInv_uc_eq_distinct hs5]
          exact hth
        · intro x
          rw [← hseq, windowSlice_eq_sliceIds]
          exact cInv_mem_iff hs5 x
    · rw [if_neg hth]
      have ih := rwcAux_spec θ hsort fuel (right + 1) lres cres ucres
        (by omega) (by omega) (by omega) hs5 hLM'
      constructor
      · intro hnone l rr hlrr hrrn hrrge hspan
        rcases Nat.eq_or_lt_of_le hrrge with heq | hlt
        · subst heq
          have := hwin l hlrr hspan
          omega
        · exact ih.1 hnone l rr hlrr hrrn (by omega) hspan
      · exact ih.2

theorem rollingWindowCheck_spec {arr : List (String × ℤ)} (θ : ℕ)
    (hsort : ∀ i j, i ≤ j → j < arr.length →
      (arr.getD i ("", 0)).2 ≤ (arr.getD j ("", 0)).2) :
    (rollingWindowCheck arr θ = none → ¬ hasFanInWindow arr θ) ∧
    (∀ s, rollingWindowCheck arr θ = some s →
      ∃ l rr, l ≤ rr ∧ rr < arr.length ∧
        (arr.getD rr ("", 0)).2 - (arr.getD l ("", 0)).2 ≤ windowSeconds ∧
        θ ≤ distinctCount (windowSlice arr l rr) ∧
        ∀ x, x ∈ s ↔ x ∈ windowSlice arr l rr) := by
  rw [rollingWindowCheck]
  by_cases hlen : arr.length < θ
  · rw [if_pos hlen]
    constructor
    · intro _ hwin
      rcases hwin with ⟨l, r, hlr, hrn, hspan, hdist⟩
      have h1 : distinctCount (windowSlice arr l r) ≤ (windowSlice arr l r).length :=
        distinctCount_le_length _
      have h2 : (windowSlice arr l r).length ≤ arr.length := by
        rw [windowSlice, List.length_map, List.length_take, List.length_drop]
        omega
      omega
    · intro s hs
      exact absurd hs (by simp)
  · rw [if_neg hlen]
    have hc0 : cInv (sliceIds arr 0 0) [] 0 := by
      rw [sliceIds_self]
      refine ⟨by simp, ?_, ?_, rfl⟩
      · intro k
        simp [lookupA]
      · intro p hp
        cases hp
    have h := rwcAux_spec θ hsort arr.length 0 0 [] 0 (by omega) (by omega) (by omega)
      hc0 (by intro j hj; exact absurd hj (Nat.not_lt_zero j))
    constructor
    · intro hnone hwin
      rcases hwin with ⟨l, r, hlr, hrn, hspan, hdist⟩
      have := h.1 hnone l r hlr hrn (by omega) hspan
      omega
    · exact h.2

theorem inboundList_sorted (txns : List Txn) (r : String) :
    ∀ i j, i ≤ j → j < (inboundList txns r).length →
      ((inboundList txns r).getD i ("", 0)).2 ≤
        ((inboundList txns r).getD j ("", 0)).2 := by
  have htot : ∀ a b : Txn, decide (a.timestamp ≤ b.timestamp) = true ∨
      decide (b.timestamp ≤ a.timestamp) = true := by
    intro a b
    rcases le_total a.timestamp b.timestamp with h | h
    · exact Or.inl (decide_eq_true h)
    · exact Or.inr (decide_eq_true h)
  have htrans : ∀ a b c : Txn, decide (a.timestamp ≤ b.timestamp) = true →
      decide (b.timestamp ≤ c.timestamp) = true →
      decide (a.timestamp ≤ c.timestamp) = true :=
    fun a b c hab hbc =>
      decide_eq_true ((of_decide_eq_true hab).trans (of_decide_eq_true hbc))
  have hsorted : List.Sorted (fun a b : Txn => decide (a.timestamp ≤ b.timestamp) = true)
      (sortByTs txns) := sorted_isort htot htrans txns
  have hpw : List.Pairwise (fun p q : String × ℤ => p.2 ≤ q.2) (inboundList txns r) := by
    rw [inboundList]
    exact List.Pairwise.map _ (fun a b hab => of_decide_eq_true hab) (hsorted.filter _)
  intro i j hij hj
  rcases Nat.eq_or_lt_of_le hij with rfl | hlt
  · exact le_refl _
  · rw [List.pairwise_iff_getElem] at hpw
    rw [List.getD_eq_getElem _ _ (by omega), List.getD_eq_getElem _ _ hj]
    exact hpw i j (by omega) hj hlt

theorem fanInReceivers_nodup (txns : List Txn) : (fanInReceivers txns).Nodup :=
  (nodup_isort (nodup_dedupF _)).filter _

/-- C2: for every receiver, `_detect_smurfing` emits a fan-in candidate
iff some 72-hour window of the receiver's time-ascending inbound list
holds at least 10 distinct senders; the emitted members are exactly the
distinct senders of the found window together with the receiver; the
probed receivers are pairwise distinct (one candidate at most per
receiver); and on concrete fan ledgers 9 distinct senders within 72
hours emit nothing while 10 emit exactly one candidate. -/
theorem C2_fan_in_rolling_window (txns : List Txn) (r : String) :
    ((∃ ring, fanInOne (sortByTs txns) r = some ring) ↔
      hasFanInWindow (inboundList txns r) 10) ∧
    (∀ ring, fanInOne (sortByTs txns) r = some ring →
      ring.patternType = "fan_in" ∧
      ∃ l rr, l ≤ rr ∧ rr < (inboundList txns r).length ∧
        ((inboundList txns r).getD rr ("", 0)).2 -
          ((inboundList txns r).getD l ("", 0)).2 ≤ windowSeconds ∧
        10 ≤ distinctCount (windowSlice (inboundList txns r) l rr) ∧
        ∀ x, x ∈ ring.members ↔
          x ∈ windowSlice (inboundList txns r) l rr ∨ x = r) ∧
    (fanInReceivers txns).Nodup ∧
    detectSmurfing (fanTxns 9) = [] ∧
    detectSmurfing (fanTxns 10) =
      [{ members := ["S0", "S1", "S2", "S3", "S4", "S5", "S6", "S7", "S8", "S9", "R"],
         patternType := "fan_in" }] := by
  have hspec := rollingWindowCheck_spec 10 (inboundList_sorted txns r)
  have heq : fanInOne (sortByTs txns) r =
      (rollingWindowCheck (inboundList txns r) 10).map (fun s =>
        { members := dedupF (s ++ [r]), patternType := "fan_in" }) := rfl
  refine ⟨?_, ?_, fanInReceivers_nodup txns, by rfl, by rfl⟩
  · constructor
    · rintro ⟨ring, hring⟩
      rw [heq] at hring
      rcases Option.map_eq_some'.mp hring with ⟨s, hs, _⟩
      rcases hspec.2 s hs with ⟨l, rr, h1, h2, h3, h4, _⟩
      exact ⟨l, rr, h1, h2, h3, h4⟩
    · intro hwin
      rcases ho : rollingWindowCheck (inboundList txns r) 10 with _ | s
      · exact absurd hwin (hspec.1 ho)
      · refine ⟨{ members := dedupF (s ++ [r]), patternType := "fan_in" }, ?_⟩
        rw [heq, ho]
        rfl
  · intro ring hring
    rw [heq] at hring
    rcases Option.map_eq_some'.mp hring with ⟨s, hs, hr2⟩
    rcases hspec.2 s hs with ⟨l, rr, h1, h2, h3, h4, h5⟩
    refine ⟨by rw [← hr2], l, rr, h1, h2, h3, h4, ?_⟩
    intro x
    rw [← hr2]
    show x ∈ dedupF (s ++ [r]) ↔ _
    rw [mem_dedupF, List.mem_append, List.mem_singleton]
    constructor
    · rintro (hx | hx)
      · exact Or.inl ((h5 x).mp hx)
      · exact Or.inr hx
    · rintro (hx | hx)
      · exact Or.inl ((h5 x).mpr hx)
      · exact Or.inr hx

/-! ### Betweenness sampling (C9) -/

set_option maxRecDepth 8000
set_option maxHeartbeats 4000000

/-- C9: the pipeline is not reproducible as claimed.  `_compute_centrality`
calls `nx.betweenness_centrality(G, normalized=True, k=min(|V|, 100))`
with the default `seed=None`, so when the graph has more than 100 nodes
the `k` source nodes are drawn from an unseeded global random generator.
On the 102-node ledger `txns102`, two valid equal-size samples of 100
distinct nodes yield different betweenness estimates for account `N1`
(whose `high_betweenness` bonus feeds on this value), so two replays of
the same input can produce different reports. -/
theorem C9_centrality_sampling_nondeterministic :
    (min (nodeList txns102).length 100 = 100 ∧ 100 < (nodeList txns102).length) ∧
    (((nodeList txns102).take 100).length = 100 ∧
      ((nodeList txns102).take 100).Nodup ∧
      ∀ v ∈ (nodeList txns102).take 100, v ∈ nodeList txns102) ∧
    (((nodeList txns102).drop 2).length = 100 ∧
      ((nodeList txns102).drop 2).Nodup ∧
      ∀ v ∈ (nodeList txns102).drop 2, v ∈ nodeList txns102) ∧
    betweennessSampled txns102 ((nodeList txns102).take 100) "N1" ≠
      betweennessSampled txns102 ((nodeList txns102).drop 2) "N1" := by
  refine ⟨⟨by decide, by decide⟩, ⟨by decide, by decide, by decide⟩,
    ⟨by decide, by decide, by decide⟩, ?_⟩
  with_unfolding_all decide

end RIFT
